import Mathlib

/-!
A shallow embedding of the automation runner's workflow engine and task
orchestrator (src/src/workflow/mod.rs, src/src/orchestrator/mod.rs), together
with proofs about the Step Scheduler (dependency DFS), the Step Executor
(condition gate, retry loop, timeout handling), the Workflow Engine's
fail-fast policy and record persistence, and the orchestrator's task-registry
cleanup and task-status lifecycle.

External effects are made explicit: the outcome of each invocation of a step's
command is supplied by an oracle `beh : Nat → CmdBehavior` (per attempt
index), and the executor additionally returns a trace of `Event`s recording
every command invocation (with the environment passed to the child process)
and every backoff sleep.  Timestamps irrelevant to the claims are modelled as
`Unit`; the orchestrator's timestamps, which the cleanup sweep compares, are
modelled as integer seconds.
-/

namespace Automation

/-- Execution status of a workflow or of a step (enum `ExecutionStatus` in
src/workflow/mod.rs). -/
inductive ExecutionStatus where
  | Pending
  | Running
  | Completed
  | Failed
  | Cancelled
  | Skipped
deriving DecidableEq, Repr

/-- Step kind (enum `StepType` in src/workflow/mod.rs); informational only. -/
inductive StepType where
  | Command
  | Script
  | Upload
  | Download
  | Transform
  | Validate
  | Notify
deriving DecidableEq, Repr

/-- One workflow step (struct `WorkflowStep` in src/workflow/mod.rs). -/
structure WorkflowStep where
  id : String
  name : String
  step_type : StepType
  command : String
  args : List String
  timeout : Option Nat
  retry_count : Option Nat
  depends_on : List String
  condition : Option String
  output : Option String
deriving DecidableEq, Repr

/-- Workflow priority (enum `WorkflowPriority` in src/workflow/mod.rs). -/
inductive WorkflowPriority where
  | Low
  | Normal
  | High
  | Critical
deriving DecidableEq, Repr

/-- Resource hints (struct `ResourceRequirements` in src/workflow/mod.rs). -/
structure ResourceRequirements where
  cpu_cores : Nat
  memory_mb : Nat
  disk_space_mb : Nat
deriving DecidableEq, Repr

/-- Workflow metadata (struct `WorkflowMetadata` in src/workflow/mod.rs). -/
structure WorkflowMetadata where
  author : String
  tags : List String
  priority : WorkflowPriority
  estimated_duration : Option Nat
  resource_requirements : ResourceRequirements
deriving DecidableEq, Repr

/-- A workflow definition (struct `Workflow` in src/workflow/mod.rs).  The
`variables` HashMap is modelled as an association list; `Uuid` identifiers as
`Nat`; timestamps as integer seconds. -/
structure Workflow where
  id : Nat
  name : String
  description : Option String
  version : String
  created_at : Int
  steps : List WorkflowStep
  vars : List (String × String)
  metadata : WorkflowMetadata
deriving DecidableEq, Repr

/-- Per-step outcome record (struct `StepExecution` in src/workflow/mod.rs).
Wall-clock timestamps are irrelevant to every claim about it, so they are
modelled as `Unit` markers recording only that `Utc::now()` was taken. -/
structure StepExecution where
  step_id : String
  status : ExecutionStatus
  started_at : Unit
  completed_at : Option Unit
  output : Option String
  error_message : Option String
  retry_count : Nat
deriving DecidableEq, Repr

/-- One run of a workflow (struct `WorkflowExecution` in src/workflow/mod.rs). -/
structure WorkflowExecution where
  id : Nat
  workflow_id : Nat
  status : ExecutionStatus
  started_at : Unit
  completed_at : Option Unit
  steps_executed : List StepExecution
  vars : List (String × String)
  error_message : Option String
deriving DecidableEq, Repr

/-- The workflow subsystem configuration (struct `WorkflowConfig` in
src/config/mod.rs). -/
structure WorkflowConfig where
  workflow_dir : String
  max_concurrent_workflows : Nat
  timeout_seconds : Nat
  retry_attempts : Nat
deriving DecidableEq, Repr

/-! ## Condition evaluation (`WorkflowEngine::evaluate_condition`)

The string primitives the evaluator relies on — `str::replace`,
`str::contains`, `str::to_lowercase` — are re-implemented over the character
list underlying `String`, because the built-in `String` versions do not
reduce inside the kernel.  `replaceGo` performs Rust's left-to-right
replacement of non-overlapping occurrences; its fuel is the length of the
subject, which bounds the recursion since every call consumes at least one
character. -/

/-- Replacement of every non-overlapping occurrence of `pat` (scanning left
to right) by `rep`, on character lists, with structural fuel. -/
def replaceGo (pat rep : List Char) : Nat → List Char → List Char
  | 0, s => s
  | _, [] => []
  | f + 1, c :: rest =>
    if pat.isPrefixOf (c :: rest) && !pat.isEmpty then
      rep ++ replaceGo pat rep f ((c :: rest).drop pat.length)
    else
      c :: replaceGo pat rep f rest

/-- Embeds Rust's `str::replace`. -/
def strReplace (s pat rep : String) : String :=
  String.mk (replaceGo pat.data rep.data s.data.length s.data)

/-- Embeds `str::to_lowercase`, as the per-character lowering `Char.toLower`
(full Unicode case mapping is irrelevant to the literal `"true"` that the
evaluator compares against). -/
def strToLower (s : String) : String :=
  String.mk (s.data.map Char.toLower)

/-- Embeds `str::contains` for a single-character pattern. -/
def strContains (s : String) (c : Char) : Bool :=
  s.data.contains c

/-- The variable-substitution loop of `evaluate_condition`: each `$key` is
replaced by its value, in the order the variable mapping is iterated. -/
def substituteVars (cond : String) (vars : List (String × String)) : String :=
  vars.foldl (fun acc kv => strReplace acc ("$" ++ kv.1) kv.2) cond

/-- Embeds `WorkflowEngine::evaluate_condition`: a condition containing a `$`
marker is variable-substituted and compared (lowercased) against the literal
string `true`; a condition without markers always passes. -/
def evaluateCondition (cond : String) (vars : List (String × String)) : Bool :=
  if strContains cond '$' then
    strToLower (substituteVars cond vars) == "true"
  else
    true

/-! ## Command invocation (`run_command` / `execute_step_command`) -/

/-- The observable behaviour of one invocation of an external command: how
many seconds it ran and its exit result.  This is the oracle through which
the embedding supplies the outcome of `Command::output()`. -/
structure CmdBehavior where
  duration : Nat
  exit_ok : Bool
  stdout : String
  stderr : String
deriving DecidableEq, Repr

/-- Embeds the result handling of `WorkflowEngine::run_command`: a zero exit
status yields the captured standard output, a non-zero exit an error carrying
the captured standard error. -/
def runCommand (b : CmdBehavior) : Except String String :=
  if b.exit_ok then
    Except.ok b.stdout
  else
    Except.error ("Command failed: " ++ b.stderr)

/-- Effective timeout of a step: the per-step override, else the workflow
default (`step.timeout.unwrap_or(self.config.timeout_seconds)`). -/
def effectiveTimeout (cfg : WorkflowConfig) (step : WorkflowStep) : Nat :=
  step.timeout.getD cfg.timeout_seconds

/-- Embeds `WorkflowEngine::execute_step_command`: the command is run under
`tokio::time::timeout` with the effective timeout; an invocation that does not
complete within it is an error (tokio's `Elapsed`), otherwise the command's
own result is returned. -/
def executeStepCommand (cfg : WorkflowConfig) (step : WorkflowStep) (b : CmdBehavior) :
    Except String String :=
  if effectiveTimeout cfg step < b.duration then
    Except.error "deadline has elapsed"
  else
    runCommand b

/-- A trace event of one step execution: a command invocation (recording the
attempt index and, as `run_command` does via `cmd.env`, the environment
injected into the child process), or a backoff sleep in seconds. -/
inductive Event where
  | invoke (attempt : Nat) (command : String) (args : List String) (env : List (String × String))
  | sleep (seconds : Nat)
deriving DecidableEq, Repr

/-! ## Step executor (`WorkflowEngine::execute_step`) -/

/-- Effective maximum retry count of a step
(`step.retry_count.unwrap_or(self.config.retry_attempts)`). -/
def maxRetriesOf (cfg : WorkflowConfig) (step : WorkflowStep) : Nat :=
  step.retry_count.getD cfg.retry_attempts

/-- The `StepExecution` value `execute_step` starts from. -/
def initialStepExecution (step : WorkflowStep) : StepExecution :=
  { step_id := step.id
    status := ExecutionStatus.Pending
    started_at := ()
    completed_at := none
    output := none
    error_message := none
    retry_count := 0 }

/-- Embeds the retry loop `for attempt in 0..=max_retries` of
`WorkflowEngine::execute_step`.  The first argument counts the remaining
iterations (`maxRetries + 1 - attempt`); `attempt` is the loop index.  Each
iteration records the command invocation in the trace; a failed attempt that
is not the last is followed by a `2^attempt`-second backoff sleep. -/
def retryLoop (cfg : WorkflowConfig) (step : WorkflowStep) (vars : List (String × String))
    (beh : Nat → CmdBehavior) (maxRetries : Nat) :
    Nat → Nat → StepExecution → List Event → StepExecution × List Event
  | 0, _, se, events =>
      ({ se with status := ExecutionStatus.Failed, completed_at := some () }, events)
  | r + 1, attempt, se, events =>
      let se1 := if 0 < attempt then { se with retry_count := attempt } else se
      let events1 := events ++ [Event.invoke attempt step.command step.args vars]
      match executeStepCommand cfg step (beh attempt) with
      | Except.ok out =>
          ({ se1 with
              output := some out
              status := ExecutionStatus.Completed
              completed_at := some () }, events1)
      | Except.error e =>
          let se2 := { se1 with error_message := some e }
          if attempt < maxRetries then
            retryLoop cfg step vars beh maxRetries r (attempt + 1) se2
              (events1 ++ [Event.sleep (2 ^ attempt)])
          else
            retryLoop cfg step vars beh maxRetries r (attempt + 1) se2 events1

/-- Embeds `WorkflowEngine::execute_step`: the condition gate (skip without
any invocation when the condition evaluates false), then the retry loop with
the effective retry budget.  `vars` is the execution's variable mapping; `beh`
gives the behaviour of the step's command on each attempt. -/
def executeStep (cfg : WorkflowConfig) (step : WorkflowStep) (vars : List (String × String))
    (beh : Nat → CmdBehavior) : StepExecution × List Event :=
  let se := initialStepExecution step
  match step.condition with
  | some c =>
      if evaluateCondition c vars then
        retryLoop cfg step vars beh (maxRetriesOf cfg step) (maxRetriesOf cfg step + 1) 0
          { se with status := ExecutionStatus.Running } []
      else
        ({ se with status := ExecutionStatus.Skipped, completed_at := some () }, [])
  | none =>
      retryLoop cfg step vars beh (maxRetriesOf cfg step) (maxRetriesOf cfg step + 1) 0
        { se with status := ExecutionStatus.Running } []

/-! ## Step Scheduler (`sort_steps_by_dependencies` / `visit_step`) -/

/-- Errors of the Step Scheduler.  `cycle id` embeds the anyhow error
`Circular dependency detected for step: {id}` and `depNotFound id` the error
`Dependency step not found: {id}`.  `outOfFuel` is an artefact of the fuelled
embedding of the recursion; `visitStep_ne_outOfFuel` below shows it cannot
occur at the fuel `sortLoop` supplies, so the fuelled function coincides with
the source's unbounded recursion. -/
inductive SortError where
  | cycle (id : String)
  | depNotFound (id : String)
  | outOfFuel
deriving DecidableEq, Repr

/-- Decidable equality of scheduler results, for concrete evaluation. -/
instance {e a : Type} [DecidableEq e] [DecidableEq a] : DecidableEq (Except e a) :=
  fun x y =>
    match x, y with
    | Except.ok u, Except.ok v => decidable_of_iff (u = v) (by simp)
    | Except.error u, Except.error v => decidable_of_iff (u = v) (by simp)
    | Except.ok _, Except.error _ => Decidable.isFalse (by simp)
    | Except.error _, Except.ok _ => Decidable.isFalse (by simp)

/-- The `for dep_id in &step.depends_on` loop of `visit_step`, parameterized
by the recursive visit to perform on each resolved dependency: each
dependency identifier is resolved to the first step carrying it
(`iter().find`), which is then visited. -/
def visitDepsWith
    (visit : WorkflowStep → List WorkflowStep → List String → List String →
      List WorkflowStep → Except SortError (List String × List WorkflowStep)) :
    List String → List WorkflowStep → List String → List String →
      List WorkflowStep → Except SortError (List String × List WorkflowStep)
  | [], _, visited, _, sorted => Except.ok (visited, sorted)
  | d :: ds, allSteps, visited, visiting, sorted =>
    match allSteps.find? (fun s => s.id == d) with
    | none => Except.error (SortError.depNotFound d)
    | some depStep =>
      match visit depStep allSteps visited visiting sorted with
      | Except.error e => Except.error e
      | Except.ok (v, s) => visitDepsWith visit ds allSteps v visiting s

/-- Embeds `WorkflowEngine::visit_step`.  `visiting` is the in-progress DFS
path (the Rust `visiting` set: each call inserts its step before recursing
into the dependencies and removes it afterwards, so on return the set is
unchanged — hence it is passed down but not returned).  `visited` and
`sorted` are threaded through and returned.  The recursion is structural on
the fuel, so concrete runs reduce inside the kernel. -/
def visitStep : Nat → WorkflowStep → List WorkflowStep → List String →
    List String → List WorkflowStep → Except SortError (List String × List WorkflowStep)
  | 0, _, _, _, _, _ => Except.error SortError.outOfFuel
  | f + 1, step, allSteps, visited, visiting, sorted =>
    if step.id ∈ visiting then
      Except.error (SortError.cycle step.id)
    else if step.id ∈ visited then
      Except.ok (visited, sorted)
    else
      match visitDepsWith (visitStep f) step.depends_on allSteps visited
          (step.id :: visiting) sorted with
      | Except.error e => Except.error e
      | Except.ok (v, s) => Except.ok (step.id :: v, s ++ [step])

/-- The dependency loop of `visit_step` at a given fuel. -/
def visitDeps (fuel : Nat) :
    List String → List WorkflowStep → List String → List String →
      List WorkflowStep → Except SortError (List String × List WorkflowStep) :=
  visitDepsWith (visitStep fuel)

/-- The outer loop of `WorkflowEngine::sort_steps_by_dependencies`: scan the
steps in declaration order and visit each not yet visited one.  Each DFS is
run with fuel `allSteps.length + 1`, which `visitStep_ne_outOfFuel` proves
sufficient. -/
def sortLoop (allSteps : List WorkflowStep) :
    List WorkflowStep → List String → List WorkflowStep →
    Except SortError (List String × List WorkflowStep)
  | [], visited, sorted => Except.ok (visited, sorted)
  | step :: rest, visited, sorted =>
    if step.id ∈ visited then
      sortLoop allSteps rest visited sorted
    else
      match visitStep (allSteps.length + 1) step allSteps visited [] sorted with
      | Except.error e => Except.error e
      | Except.ok (v, s) => sortLoop allSteps rest v s

/-- Embeds `WorkflowEngine::sort_steps_by_dependencies`. -/
def sortStepsByDependencies (steps : List WorkflowStep) :
    Except SortError (List WorkflowStep) :=
  match sortLoop steps steps [] [] with
  | Except.error e => Except.error e
  | Except.ok (_, s) => Except.ok s

/-- All dependency identifiers of the step set resolve to a step of the set. -/
def Resolves (steps : List WorkflowStep) : Prop :=
  ∀ s ∈ steps, ∀ d ∈ s.depends_on, ∃ t ∈ steps, t.id = d

/-- The direct dependency relation on step identifiers: `idDep steps a b`
holds when some step of the set carries identifier `a` and lists `b` among
its dependencies. -/
def idDep (steps : List WorkflowStep) (a b : String) : Prop :=
  ∃ s ∈ steps, s.id = a ∧ b ∈ s.depends_on

/-- The step set contains a dependency cycle: some identifier transitively
depends on itself. -/
def HasCycle (steps : List WorkflowStep) : Prop :=
  ∃ a, Relation.TransGen (idDep steps) a a

/-! ## Workflow Engine (`execute_workflow` / `execute_workflow_steps`) -/

/-- Errors surfaced by the Workflow Engine: a graph error from the Step
Scheduler, or the anyhow error `Step {id} failed: {msg}` raised by the
fail-fast scan of `execute_workflow_steps`. -/
inductive EngineError where
  | graphError (e : SortError)
  | stepFailed (step_id : String) (msg : Option String)
deriving DecidableEq, Repr

/-- The `for step in sorted_steps` loop of `execute_workflow_steps`: run each
step, append its `StepExecution`, then scan all accumulated records for one
with status `Failed`; on a hit, mark the execution `Failed`, copy that
record's error message to the top level and abort with an error.  The
behaviour oracle `beh` is indexed by step identifier and attempt. -/
def runSteps (cfg : WorkflowConfig) (beh : String → Nat → CmdBehavior) :
    List WorkflowStep → WorkflowExecution → WorkflowExecution × Option EngineError
  | [], ex => (ex, none)
  | step :: rest, ex =>
    let se := (executeStep cfg step ex.vars (beh step.id)).1
    let ex1 := { ex with steps_executed := ex.steps_executed ++ [se] }
    match ex1.steps_executed.find? (fun s => s.status == ExecutionStatus.Failed) with
    | some failed =>
        ({ ex1 with status := ExecutionStatus.Failed, error_message := failed.error_message },
         some (EngineError.stepFailed failed.step_id failed.error_message))
    | none => runSteps cfg beh rest ex1

/-- The `WorkflowExecution` that `execute_workflow` constructs before running
the steps: status `Pending`, no step records, variables copied from the
workflow. -/
def initialExecution (wf : Workflow) (eid : Nat) : WorkflowExecution :=
  { id := eid
    workflow_id := wf.id
    status := ExecutionStatus.Pending
    started_at := ()
    completed_at := none
    steps_executed := []
    vars := wf.vars
    error_message := none }

/-- Embeds `WorkflowEngine::execute_workflow_steps`: set the execution
`Running`, resolve the order through the Step Scheduler (a graph error aborts
before any step runs), then drive the steps.  Returns the execution state at
the point of return together with the error, if any. -/
def executeWorkflowSteps (cfg : WorkflowConfig) (wf : Workflow)
    (beh : String → Nat → CmdBehavior) (ex : WorkflowExecution) :
    WorkflowExecution × Option EngineError :=
  let ex1 := { ex with status := ExecutionStatus.Running }
  match sortStepsByDependencies wf.steps with
  | Except.error e => (ex1, some (EngineError.graphError e))
  | Except.ok sortedSteps => runSteps cfg beh sortedSteps ex1

/-- Outcome of `WorkflowEngine::execute_workflow`: the value or error
returned to the caller, and the record passed to `save_execution_record`
(`none` when no record was persisted). -/
structure EngineRun where
  result : Except EngineError WorkflowExecution
  persisted : Option WorkflowExecution
deriving Repr

/-- Embeds `WorkflowEngine::execute_workflow` (after the workflow definition
has been loaded): build the initial execution, run the steps — the `?`
operator propagates any error immediately, reaching neither the
completion-stamping nor `save_execution_record` — and otherwise mark the
execution `Completed`, persist it and return it. -/
def executeWorkflow (cfg : WorkflowConfig) (wf : Workflow)
    (beh : String → Nat → CmdBehavior) (eid : Nat) : EngineRun :=
  match executeWorkflowSteps cfg wf beh (initialExecution wf eid) with
  | (_, some e) => { result := Except.error e, persisted := none }
  | (ex, none) =>
      let fin := { ex with completed_at := some (), status := ExecutionStatus.Completed }
      { result := Except.ok fin, persisted := some fin }

/-! ## Orchestrator (src/src/orchestrator/mod.rs) -/

/-- Orchestrator-level task status (enum `TaskStatus`). -/
inductive TaskStatus where
  | Pending
  | Running
  | Completed
  | Failed
  | Cancelled
deriving DecidableEq, Repr

/-- Task kind (enum `TaskType`). -/
inductive TaskType where
  | Upload
  | Workflow
  | System
deriving DecidableEq, Repr

/-- Orchestrator-level task record (struct `TaskInfo`); timestamps are
integer seconds since some epoch, as the cleanup sweep compares them. -/
structure TaskInfo where
  id : Nat
  task_type : TaskType
  status : TaskStatus
  created_at : Int
  started_at : Option Int
  completed_at : Option Int
  error_message : Option String
deriving DecidableEq, Repr

/-- A task status is terminal: `Completed`, `Failed` or `Cancelled` — the
statuses matched by the first arm of `cleanup_completed_tasks`. -/
def isTerminal : TaskStatus → Bool
  | TaskStatus.Completed => true
  | TaskStatus.Failed => true
  | TaskStatus.Cancelled => true
  | _ => false

/-- Chrono's `Duration::num_hours` on a duration of `d` seconds: whole hours,
truncated toward zero. -/
def numHours (d : Int) : Int :=
  d.tdiv 3600

/-- The removal test of `cleanup_completed_tasks`: a terminal status, a
present completion timestamp, and `(now - completed_at).num_hours() > 24`. -/
def shouldRemove (now : Int) (t : TaskInfo) : Bool :=
  match t.status with
  | TaskStatus.Completed | TaskStatus.Failed | TaskStatus.Cancelled =>
    match t.completed_at with
    | some c => decide (24 < numHours (now - c))
    | none => false
  | _ => false

/-- Embeds `AutomationOrchestrator::cleanup_completed_tasks`: first collect
the identifiers of every entry passing the removal test, then remove those
identifiers from the registry; report the count collected. -/
def cleanupCompletedTasks (now : Int) (tasks : List TaskInfo) : List TaskInfo × Nat :=
  let toRemove := (tasks.filter (shouldRemove now)).map (fun t => t.id)
  (tasks.filter (fun t => !(toRemove.contains t.id)), toRemove.length)

/-- The atomic registry mutations a single task's entry undergoes, in the
orchestrator's source: `start` is the `get_mut` block setting `Running` with a
start timestamp, `finish ok` the post-delegate block setting `Completed` or
`Failed`, and `cancel` the body of `cancel_task`. -/
inductive TaskOp where
  | start
  | finish (ok : Bool)
  | cancel
deriving DecidableEq, Repr

/-- Whether an operation is a `cancel_task` mutation. -/
def TaskOp.isCancel : TaskOp → Bool
  | TaskOp.cancel => true
  | _ => false

/-- The status each registry mutation writes.  Every arm of the source
assigns unconditionally, regardless of the entry's current status. -/
def applyStatus : TaskStatus → TaskOp → TaskStatus
  | _, TaskOp.start => TaskStatus.Running
  | _, TaskOp.finish true => TaskStatus.Completed
  | _, TaskOp.finish false => TaskStatus.Failed
  | _, TaskOp.cancel => TaskStatus.Cancelled

/-- The sequence of statuses a task's entry takes over time, starting from
the `Pending` it is inserted with, under a given sequence of mutations. -/
def statusTrace (ops : List TaskOp) : List TaskStatus :=
  List.scanl applyStatus TaskStatus.Pending ops

/-- Stage of a status along the task state machine. -/
def statusRank : TaskStatus → Nat
  | TaskStatus.Pending => 0
  | TaskStatus.Running => 1
  | TaskStatus.Completed => 2
  | TaskStatus.Failed => 2
  | TaskStatus.Cancelled => 2

/-- One observed status change moves forward along
`Pending → Running → {Completed | Failed | Cancelled}`: either the status is
unchanged, or it advances from a non-terminal status to a strictly later
stage — in particular a terminal status is never left. -/
def forwardStep (a b : TaskStatus) : Bool :=
  a == b || (!(isTerminal a) && decide (statusRank a < statusRank b))

/-- Every adjacent pair of an observed status sequence is a forward move. -/
def forwardTrace : List TaskStatus → Bool
  | [] => true
  | [_] => true
  | a :: b :: rest => forwardStep a b && forwardTrace (b :: rest)

/-- The mutation sequences that one `process_upload` / `execute_workflow`
call performs on its task entry — `start` then `finish ok` — with any number
of concurrent `cancel_task` mutations interleaved anywhere. -/
def IsLifecycle (ops : List TaskOp) (ok : Bool) : Prop :=
  ops.filter (fun o => !o.isCancel) = [TaskOp.start, TaskOp.finish ok]

/-! ## Derived notions used by the statements -/

/-- The error message of attempt `n` of a step's command (the empty string
when the attempt succeeds, in which case it is never consulted). -/
def errMsgAt (cfg : WorkflowConfig) (step : WorkflowStep) (beh : Nat → CmdBehavior)
    (n : Nat) : String :=
  match executeStepCommand cfg step (beh n) with
  | Except.error e => e
  | Except.ok _ => ""

/-- Attempt `n` of the step's command fails (timeout or non-zero exit). -/
def AttemptFails (cfg : WorkflowConfig) (step : WorkflowStep) (beh : Nat → CmdBehavior)
    (n : Nat) : Prop :=
  ∃ e, executeStepCommand cfg step (beh n) = Except.error e

/-- Whether a trace event is a command invocation. -/
def Event.isInvoke : Event → Bool
  | Event.invoke _ _ _ _ => true
  | _ => false

/-- Number of command invocations recorded in a trace. -/
def countInvokes (events : List Event) : Nat :=
  (events.filter Event.isInvoke).length

/-- The trace the retry loop appends when started at iteration `attempt` with
`r` iterations remaining: the invocation of each attempt, each failed
non-final attempt followed by its backoff sleep, stopping at the first
success. -/
def loopEvents (cfg : WorkflowConfig) (step : WorkflowStep) (vars : List (String × String))
    (beh : Nat → CmdBehavior) (maxR : Nat) : Nat → Nat → List Event
  | 0, _ => []
  | r + 1, attempt =>
    Event.invoke attempt step.command step.args vars ::
      (match executeStepCommand cfg step (beh attempt) with
       | Except.ok _ => []
       | Except.error _ =>
         (if attempt < maxR then [Event.sleep (2 ^ attempt)] else []) ++
           loopEvents cfg step vars beh maxR r (attempt + 1))

/-- The step's condition gate lets execution proceed: there is no condition,
or the condition evaluates true. -/
def conditionPasses (step : WorkflowStep) (vars : List (String × String)) : Prop :=
  ∀ c, step.condition = some c → evaluateCondition c vars = true

/-- Direct dependency between positions of a resolved order: the step at
position `i` lists the identifier of the step at position `j` among its
dependencies. -/
def DirectDepIn (order : List WorkflowStep) (i j : Fin order.length) : Prop :=
  (order.get j).id ∈ (order.get i).depends_on

/-- The identifiers of a step list, in order. -/
def idsOf (steps : List WorkflowStep) : List String :=
  steps.map (fun s => s.id)

/-- Every element's dependencies are identifiers of earlier elements (or of
the accumulator `before`): the shape of a DFS output prefix. -/
def ClosedFrom : List String → List WorkflowStep → Prop
  | _, [] => True
  | before, x :: rest =>
    (∀ d ∈ x.depends_on, d ∈ before) ∧ ClosedFrom (x.id :: before) rest

/-- Invariant of the DFS state `(visited, sorted)`: `visited` is exactly the
identifier set of `sorted`; `sorted` has pairwise-distinct identifiers, draws
its elements from the step set, and is dependency-closed (each element's
dependencies name earlier elements). -/
def SchedInv (allSteps : List WorkflowStep) (visited : List String)
    (sorted : List WorkflowStep) : Prop :=
  (∀ x, x ∈ visited ↔ x ∈ idsOf sorted) ∧
  (idsOf sorted).Nodup ∧
  (∀ t ∈ sorted, t ∈ allSteps) ∧
  ClosedFrom [] sorted

/-- Soundness package for `visitStep` at a given fuel: under the DFS
invariants, an `ok` result extends `sorted` conservatively and re-establishes
the invariant with the step visited; a `cycle` error names an identifier on a
dependency cycle; a `depNotFound` error names a dependency identifier that no
step carries; and fuel exhaustion is impossible. -/
def StepSound (allSteps : List WorkflowStep) (fuel : Nat) : Prop :=
  ∀ step visited visiting sorted,
    step ∈ allSteps →
    SchedInv allSteps visited sorted →
    List.Chain' (fun a b => idDep allSteps b a) visiting →
    (∀ hd, visiting.head? = some hd → idDep allSteps hd step.id) →
    visiting.Nodup →
    (∀ x ∈ visiting, x ∈ idsOf allSteps) →
    (idsOf allSteps).toFinset.card < fuel + visiting.length →
    ((∀ v s, visitStep fuel step allSteps visited visiting sorted = Except.ok (v, s) →
        (∃ t, s = sorted ++ t) ∧ (∀ x ∈ visited, x ∈ v) ∧ step.id ∈ v ∧
        SchedInv allSteps v s ∧ (∀ x ∈ v, x ∈ visited ∨ x ∉ visiting)) ∧
     (∀ c, visitStep fuel step allSteps visited visiting sorted =
        Except.error (SortError.cycle c) →
        Relation.TransGen (idDep allSteps) c c) ∧
     (∀ d, visitStep fuel step allSteps visited visiting sorted =
        Except.error (SortError.depNotFound d) →
        (∃ s0 ∈ allSteps, d ∈ s0.depends_on) ∧ ∀ t ∈ allSteps, t.id ≠ d) ∧
     visitStep fuel step allSteps visited visiting sorted ≠
        Except.error SortError.outOfFuel)

/-- Soundness package for `visitDeps` at a given fuel, mirroring
`StepSound` over the remaining dependency list. -/
def DepsSound (allSteps : List WorkflowStep) (fuel : Nat) : Prop :=
  ∀ deps visited visiting sorted,
    (∀ d ∈ deps, ∃ s0 ∈ allSteps, d ∈ s0.depends_on) →
    SchedInv allSteps visited sorted →
    List.Chain' (fun a b => idDep allSteps b a) visiting →
    (∀ d ∈ deps, ∀ hd, visiting.head? = some hd → idDep allSteps hd d) →
    visiting.Nodup →
    (∀ x ∈ visiting, x ∈ idsOf allSteps) →
    (idsOf allSteps).toFinset.card < fuel + visiting.length →
    ((∀ v s, visitDeps fuel deps allSteps visited visiting sorted = Except.ok (v, s) →
        (∃ t, s = sorted ++ t) ∧ (∀ x ∈ visited, x ∈ v) ∧ (∀ d ∈ deps, d ∈ v) ∧
        SchedInv allSteps v s ∧ (∀ x ∈ v, x ∈ visited ∨ x ∉ visiting)) ∧
     (∀ c, visitDeps fuel deps allSteps visited visiting sorted =
        Except.error (SortError.cycle c) →
        Relation.TransGen (idDep allSteps) c c) ∧
     (∀ d0, visitDeps fuel deps allSteps visited visiting sorted =
        Except.error (SortError.depNotFound d0) →
        (∃ s0 ∈ allSteps, d0 ∈ s0.depends_on) ∧ ∀ t ∈ allSteps, t.id ≠ d0) ∧
     visitDeps fuel deps allSteps visited visiting sorted ≠
        Except.error SortError.outOfFuel)

/-! ## Concrete fixtures for witnesses and counterexamples -/

/-- The default workflow configuration (`WorkflowConfig::default` in
src/config/mod.rs). -/
def sampleConfig : WorkflowConfig :=
  { workflow_dir := "./workflows"
    max_concurrent_workflows := 4
    timeout_seconds := 3600
    retry_attempts := 3 }

/-- A minimal step running command `run` with the given identifier,
dependencies and retry override. -/
def mkStep (i : String) (deps : List String) (retries : Option Nat) : WorkflowStep :=
  { id := i
    name := i
    step_type := StepType.Command
    command := "run"
    args := []
    timeout := none
    retry_count := retries
    depends_on := deps
    condition := none
    output := none }

/-- A command behaviour that always succeeds instantly. -/
def okBeh : Nat → CmdBehavior :=
  fun _ => { duration := 0, exit_ok := true, stdout := "out", stderr := "" }

/-- A command behaviour that always exits non-zero instantly. -/
def failBeh : Nat → CmdBehavior :=
  fun _ => { duration := 0, exit_ok := false, stdout := "", stderr := "boom" }

/-- A command behaviour that never completes within any configured timeout
(it runs for 10000 seconds). -/
def slowBeh : Nat → CmdBehavior :=
  fun _ => { duration := 10000, exit_ok := true, stdout := "late", stderr := "" }

/-- Sample metadata for concrete workflows. -/
def sampleMetadata : WorkflowMetadata :=
  { author := "ops"
    tags := []
    priority := WorkflowPriority.Normal
    estimated_duration := none
    resource_requirements := { cpu_cores := 1, memory_mb := 1, disk_space_mb := 1 } }

/-- A concrete 3-step chain workflow `a ← b ← c` (b depends on a, c on b)
where step `b` carries `retry_count = Some(0)`. -/
def chainWorkflow : Workflow :=
  { id := 1
    name := "chain"
    description := none
    version := "1.0"
    created_at := 0
    steps := [mkStep "a" [] none, mkStep "b" ["a"] (some 0), mkStep "c" ["b"] none]
    vars := []
    metadata := sampleMetadata }

/-- A behaviour oracle under which step `b`'s command always exits non-zero
and every other command succeeds instantly. -/
def chainBeh : String → Nat → CmdBehavior :=
  fun i n => if i == "b" then failBeh n else okBeh n

/-- A concrete one-step workflow whose only step always fails (no retries). -/
def failWorkflow : Workflow :=
  { id := 2
    name := "failing"
    description := none
    version := "1.0"
    created_at := 0
    steps := [mkStep "b" [] (some 0)]
    vars := []
    metadata := sampleMetadata }

/-- A sample terminal task entry completed at time 0. -/
def sampleTask : TaskInfo :=
  { id := 1
    task_type := TaskType.Workflow
    status := TaskStatus.Completed
    created_at := 0
    started_at := some 0
    completed_at := some 0
    error_message := none }

/-! ## Lemmas about the retry loop -/

theorem countInvokes_append (a b : List Event) :
    countInvokes (a ++ b) = countInvokes a + countInvokes b := by
  simp [countInvokes, List.filter_append]

theorem retryLoop_events (cfg : WorkflowConfig) (step : WorkflowStep)
    (vars : List (String × String)) (beh : Nat → CmdBehavior) (maxR : Nat) :
    ∀ r attempt se events,
      (retryLoop cfg step vars beh maxR r attempt se events).2 =
        events ++ loopEvents cfg step vars beh maxR r attempt := by
  intro r
  induction r with
  | zero =>
    intro attempt se events
    simp [retryLoop, loopEvents]
  | succ r ih =>
    intro attempt se events
    simp only [retryLoop, loopEvents]
    cases h : executeStepCommand cfg step (beh attempt) with
    | ok out => simp [h]
    | error e =>
      simp only [h]
      by_cases hlt : attempt < maxR
      · simp [hlt, ih]
      · simp [hlt, ih]

theorem retryLoop_ok_first (cfg : WorkflowConfig) (step : WorkflowStep)
    (vars : List (String × String)) (beh : Nat → CmdBehavior) (maxR r : Nat)
    (se : StepExecution) (events : List Event) (out : String)
    (h : executeStepCommand cfg step (beh 0) = Except.ok out) :
    retryLoop cfg step vars beh maxR (r + 1) 0 se events =
      ({ se with
          output := some out
          status := ExecutionStatus.Completed
          completed_at := some () },
       events ++ [Event.invoke 0 step.command step.args vars]) := by
  simp [retryLoop, h]

theorem retryLoop_fail_spec (cfg : WorkflowConfig) (step : WorkflowStep)
    (vars : List (String × String)) (beh : Nat → CmdBehavior) (maxR : Nat)
    (hfail : ∀ n, AttemptFails cfg step beh n) :
    ∀ r attempt se events, attempt + (r + 1) = maxR + 1 →
      (retryLoop cfg step vars beh maxR (r + 1) attempt se events).1.status =
          ExecutionStatus.Failed ∧
      (retryLoop cfg step vars beh maxR (r + 1) attempt se events).1.completed_at = some () ∧
      (retryLoop cfg step vars beh maxR (r + 1) attempt se events).1.retry_count =
          (if maxR = 0 then se.retry_count else maxR) ∧
      (retryLoop cfg step vars beh maxR (r + 1) attempt se events).1.error_message =
          some (errMsgAt cfg step beh maxR) ∧
      (retryLoop cfg step vars beh maxR (r + 1) attempt se events).1.output = se.output ∧
      (retryLoop cfg step vars beh maxR (r + 1) attempt se events).1.step_id = se.step_id := by
  intro r
  induction r with
  | zero =>
    intro attempt se events hsum
    have hatt : attempt = maxR := by omega
    obtain ⟨e, he⟩ := hfail attempt
    have hmsg : errMsgAt cfg step beh maxR = e := by
      simp [errMsgAt, hatt ▸ he]
    have hlt : ¬ attempt < maxR := by omega
    subst hatt
    by_cases h0 : 0 < attempt
    · have hmax : ¬ attempt = 0 := by omega
      simp [retryLoop, he, hlt, h0, hmax, hmsg]
    · have hmax : attempt = 0 := by omega
      subst hmax
      simp [retryLoop, he, hmsg]
  | succ r ih =>
    intro attempt se events hsum
    have hlt : attempt < maxR := by omega
    have hmax : ¬ maxR = 0 := by omega
    obtain ⟨e, he⟩ := hfail attempt
    by_cases h0 : 0 < attempt
    · have := ih (attempt + 1)
        { se with retry_count := attempt, error_message := some e }
        ((events ++ [Event.invoke attempt step.command step.args vars]) ++
          [Event.sleep (2 ^ attempt)]) (by omega)
      simp only [retryLoop, he, hlt, if_pos h0, if_pos hlt] at *
      simp only [hmax, if_false] at this ⊢
      exact ⟨this.1, this.2.1, this.2.2.1, this.2.2.2.1, this.2.2.2.2.1, this.2.2.2.2.2⟩
    · have := ih (attempt + 1)
        { se with error_message := some e }
        ((events ++ [Event.invoke attempt step.command step.args vars]) ++
          [Event.sleep (2 ^ attempt)]) (by omega)
      simp only [retryLoop, he, hlt, if_neg h0, if_pos hlt] at *
      simp only [hmax, if_false] at this ⊢
      exact ⟨this.1, this.2.1, this.2.2.1, this.2.2.2.1, this.2.2.2.2.1, this.2.2.2.2.2⟩

theorem countInvokes_nil : countInvokes [] = 0 := rfl

theorem countInvokes_cons_invoke (a : Nat) (c : String) (g : List String)
    (v : List (String × String)) (l : List Event) :
    countInvokes (Event.invoke a c g v :: l) = countInvokes l + 1 := by
  simp [countInvokes, Event.isInvoke, List.filter_cons, Nat.add_comm]

theorem countInvokes_cons_sleep (s : Nat) (l : List Event) :
    countInvokes (Event.sleep s :: l) = countInvokes l := by
  simp [countInvokes, Event.isInvoke, List.filter_cons]

theorem countInvokes_loopEvents_fail (cfg : WorkflowConfig) (step : WorkflowStep)
    (vars : List (String × String)) (beh : Nat → CmdBehavior) (maxR : Nat)
    (hfail : ∀ n, AttemptFails cfg step beh n) :
    ∀ r attempt, countInvokes (loopEvents cfg step vars beh maxR r attempt) = r := by
  intro r
  induction r with
  | zero =>
    intro attempt
    simp [loopEvents, countInvokes_nil]
  | succ r ih =>
    intro attempt
    obtain ⟨e, he⟩ := hfail attempt
    by_cases hlt : attempt < maxR
    · simp [loopEvents, he, hlt, countInvokes_cons_invoke, countInvokes_cons_sleep, ih]
    · simp [loopEvents, he, hlt, countInvokes_cons_invoke, ih]

theorem executeStep_of_passes (cfg : WorkflowConfig) (step : WorkflowStep)
    (vars : List (String × String)) (beh : Nat → CmdBehavior)
    (h : conditionPasses step vars) :
    executeStep cfg step vars beh =
      retryLoop cfg step vars beh (maxRetriesOf cfg step) (maxRetriesOf cfg step + 1) 0
        { initialStepExecution step with status := ExecutionStatus.Running } [] := by
  unfold executeStep
  cases hc : step.condition with
  | none => rfl
  | some c => simp [h c hc]

/-- C4: a step whose effective retry count is 2 and whose command fails on
every attempt is invoked exactly 3 times, and its `StepExecution` has status
`Failed`, `retry_count = 2` and the last observed error message (that of
attempt 2). -/
theorem step_retry_exhaustion (cfg : WorkflowConfig) (step : WorkflowStep)
    (vars : List (String × String)) (beh : Nat → CmdBehavior)
    (hmax : maxRetriesOf cfg step = 2)
    (hcond : conditionPasses step vars)
    (hfail : ∀ n, AttemptFails cfg step beh n) :
    (executeStep cfg step vars beh).1.status = ExecutionStatus.Failed ∧
    (executeStep cfg step vars beh).1.retry_count = 2 ∧
    (executeStep cfg step vars beh).1.error_message = some (errMsgAt cfg step beh 2) ∧
    countInvokes (executeStep cfg step vars beh).2 = 3 := by
  rw [executeStep_of_passes cfg step vars beh hcond, hmax]
  have hspec := retryLoop_fail_spec cfg step vars beh 2 hfail 2 0
    { initialStepExecution step with status := ExecutionStatus.Running } [] (by omega)
  refine ⟨hspec.1, ?_, hspec.2.2.2.1, ?_⟩
  · rw [hspec.2.2.1]
    simp
  · rw [retryLoop_events cfg step vars beh 2 (2 + 1) 0]
    simp [countInvokes_loopEvents_fail cfg step vars beh 2 hfail]

/-- Witness for C4 at a concrete step with `retry_count = Some(2)` under the
default configuration and an always-failing command. -/
theorem step_retry_exhaustion_witness :
    (executeStep sampleConfig (mkStep "s" [] (some 2)) [] failBeh).1.status =
        ExecutionStatus.Failed ∧
    (executeStep sampleConfig (mkStep "s" [] (some 2)) [] failBeh).1.retry_count = 2 ∧
    (executeStep sampleConfig (mkStep "s" [] (some 2)) [] failBeh).1.error_message =
        some (errMsgAt sampleConfig (mkStep "s" [] (some 2)) failBeh 2) ∧
    countInvokes (executeStep sampleConfig (mkStep "s" [] (some 2)) [] failBeh).2 = 3 :=
  step_retry_exhaustion sampleConfig (mkStep "s" [] (some 2)) [] failBeh rfl
    (fun _ h => Option.noConfusion h)
    (fun _ => ⟨"Command failed: boom", rfl⟩)

theorem loopEvents_invoke_preceded (cfg : WorkflowConfig) (step : WorkflowStep)
    (vars : List (String × String)) (beh : Nat → CmdBehavior) (maxR : Nat) :
    ∀ r attempt pre k c a e post, attempt + r ≤ maxR + 1 →
      loopEvents cfg step vars beh maxR r attempt =
        pre ++ Event.invoke k c a e :: post →
      (pre = [] ∧ k = attempt) ∨
      (0 < k ∧ ∃ pre2, pre = pre2 ++ [Event.sleep (2 ^ (k - 1))]) := by
  intro r
  induction r with
  | zero =>
    intro attempt pre k c a e post hle heq
    simp [loopEvents] at heq
  | succ r ih =>
    intro attempt pre k c a e post hle heq
    simp only [loopEvents] at heq
    cases hcmd : executeStepCommand cfg step (beh attempt) with
    | ok out =>
      rw [hcmd] at heq
      cases pre with
      | nil =>
        rw [List.nil_append] at heq
        injection heq with h1 h2
        injection h1 with hattempt hc ha he2
        exact Or.inl ⟨rfl, hattempt.symm⟩
      | cons p0 pre1 =>
        rw [List.cons_append] at heq
        injection heq with h1 h2
        cases pre1 <;> simp at h2
    | error err =>
      rw [hcmd] at heq
      by_cases hlt : attempt < maxR
      · rw [if_pos hlt, List.singleton_append] at heq
        cases pre with
        | nil =>
          rw [List.nil_append] at heq
          injection heq with h1 h2
          injection h1 with hattempt hc ha he2
          exact Or.inl ⟨rfl, hattempt.symm⟩
        | cons p0 pre1 =>
          rw [List.cons_append] at heq
          injection heq with h1 h2
          cases pre1 with
          | nil =>
            rw [List.nil_append] at h2
            injection h2 with h3 h4
            exact absurd h3 (by simp)
          | cons p1 pre2 =>
            rw [List.cons_append] at h2
            injection h2 with h3 h4
            rcases ih (attempt + 1) pre2 k c a e post (by omega) h4 with
              ⟨hpre2, hk⟩ | ⟨hk, pre3, hpre2⟩
            · subst hpre2
              subst hk
              refine Or.inr ⟨by omega, [p0], ?_⟩
              rw [← h3]
              simp
            · refine Or.inr ⟨hk, p0 :: p1 :: pre3, ?_⟩
              rw [hpre2]
              rfl
      · rw [if_neg hlt] at heq
        have hr : r = 0 := by omega
        subst hr
        simp only [loopEvents, List.nil_append, List.append_nil] at heq
        cases pre with
        | nil =>
          rw [List.nil_append] at heq
          injection heq with h1 h2
          injection h1 with hattempt hc ha he2
          exact Or.inl ⟨rfl, hattempt.symm⟩
        | cons p0 pre1 =>
          rw [List.cons_append] at heq
          injection heq with h1 h2
          cases pre1 <;> simp at h2

/-- C6 (amended): before a retry attempt of index `k > 0` the Step Executor
sleeps exactly `2 ^ (k - 1)` seconds — the backoff written after failed
attempt `k - 1` is `2 ^ (k - 1)`, not `2 ^ k`: in any execution trace, the
event immediately preceding the invocation of attempt `k` is a
`2 ^ (k - 1)`-second sleep. -/
theorem retry_backoff_wait (cfg : WorkflowConfig) (step : WorkflowStep)
    (vars : List (String × String)) (beh : Nat → CmdBehavior)
    (pre post : List Event) (k : Nat) (c : String) (a : List String)
    (e : List (String × String))
    (hcond : conditionPasses step vars)
    (hk : 0 < k)
    (heq : (executeStep cfg step vars beh).2 = pre ++ Event.invoke k c a e :: post) :
    ∃ pre2, pre = pre2 ++ [Event.sleep (2 ^ (k - 1))] := by
  rw [executeStep_of_passes cfg step vars beh hcond,
    retryLoop_events cfg step vars beh (maxRetriesOf cfg step) (maxRetriesOf cfg step + 1) 0,
    List.nil_append] at heq
  rcases loopEvents_invoke_preceded cfg step vars beh (maxRetriesOf cfg step)
      (maxRetriesOf cfg step + 1) 0 pre k c a e post (by omega) heq with
    ⟨-, hk0⟩ | ⟨-, h⟩
  · omega
  · exact h

/-- Counterexample to C6 as stated: for a step with `retry_count = Some(2)`
whose command always fails, the trace shows the wait before retry attempt 1
is `2 ^ 0 = 1` second, not `2 ^ 1 = 2`: the prefix preceding the invocation
of attempt 1 ends in `sleep 1`, not `sleep (2 ^ 1)`. -/
theorem retry_backoff_counterexample :
    (executeStep sampleConfig (mkStep "s" [] (some 2)) [] failBeh).2 =
      [Event.invoke 0 "run" [] [], Event.sleep 1, Event.invoke 1 "run" [] [],
       Event.sleep 2, Event.invoke 2 "run" [] []] ∧
    ¬ ∃ pre2, [Event.invoke 0 "run" [] [], Event.sleep 1] =
        pre2 ++ [Event.sleep (2 ^ 1)] := by
  refine ⟨by decide, ?_⟩
  rintro ⟨pre2, h⟩
  have h2 := congrArg List.getLast? h
  simp [List.getLast?_concat] at h2

/-- Witness for the amended C6 at the concrete always-failing step: the
invocation of retry attempt 1 is immediately preceded by a
`2 ^ 0 = 1`-second sleep. -/
theorem retry_backoff_wait_witness :
    ∃ pre2, [Event.invoke 0 "run" [] ([] : List (String × String)), Event.sleep 1] =
      pre2 ++ [Event.sleep (2 ^ (1 - 1))] :=
  retry_backoff_wait sampleConfig (mkStep "s" [] (some 2)) [] failBeh
    [Event.invoke 0 "run" [] [], Event.sleep 1]
    [Event.sleep 2, Event.invoke 2 "run" [] []] 1 "run" [] []
    (fun _ h => Option.noConfusion h) (by decide) (by decide)

/-- C5: the condition gate of the Step Executor.  With a `$` marker the
condition passes exactly when the variable-substituted string, lowercased,
equals the literal `"true"`; without a marker it always passes; when it
evaluates false the step's record is `Skipped` with no retries and the
command is never invoked; when it evaluates true the command is invoked
(attempt 0 heads the trace). -/
theorem condition_gate (cfg : WorkflowConfig) (step : WorkflowStep)
    (vars : List (String × String)) (beh : Nat → CmdBehavior) (c : String)
    (hc : step.condition = some c) :
    (strContains c '$' = true →
      evaluateCondition c vars = (strToLower (substituteVars c vars) == "true")) ∧
    (strContains c '$' = false → evaluateCondition c vars = true) ∧
    (evaluateCondition c vars = false →
      (executeStep cfg step vars beh).1.status = ExecutionStatus.Skipped ∧
      (executeStep cfg step vars beh).1.retry_count = 0 ∧
      countInvokes (executeStep cfg step vars beh).2 = 0) ∧
    (evaluateCondition c vars = true →
      ∃ rest, (executeStep cfg step vars beh).2 =
        Event.invoke 0 step.command step.args vars :: rest) := by
  refine ⟨?_, ?_, ?_, ?_⟩
  · intro h
    simp [evaluateCondition, h]
  · intro h
    simp [evaluateCondition, h]
  · intro h
    simp [executeStep, hc, h, initialStepExecution, countInvokes_nil]
  · intro h
    have hrw : executeStep cfg step vars beh =
        retryLoop cfg step vars beh (maxRetriesOf cfg step) (maxRetriesOf cfg step + 1) 0
          { initialStepExecution step with status := ExecutionStatus.Running } [] := by
      simp [executeStep, hc, h]
    rw [hrw,
      retryLoop_events cfg step vars beh (maxRetriesOf cfg step) (maxRetriesOf cfg step + 1) 0,
      List.nil_append]
    exact ⟨_, rfl⟩

/-- Witness for C5 at the concrete condition `$flag` with variable
`flag = "false"`: the step is skipped and its command never invoked. -/
theorem condition_gate_witness :
    (executeStep sampleConfig { mkStep "s" [] none with condition := some "$flag" }
        [("flag", "false")] okBeh).1.status = ExecutionStatus.Skipped ∧
    countInvokes (executeStep sampleConfig
        { mkStep "s" [] none with condition := some "$flag" }
        [("flag", "false")] okBeh).2 = 0 :=
  ⟨((condition_gate sampleConfig { mkStep "s" [] none with condition := some "$flag" }
      [("flag", "false")] okBeh "$flag" rfl).2.2.1 (by decide)).1,
   ((condition_gate sampleConfig { mkStep "s" [] none with condition := some "$flag" }
      [("flag", "false")] okBeh "$flag" rfl).2.2.1 (by decide)).2.2⟩

theorem retryLoop_isOk_congr (cfg : WorkflowConfig) (step : WorkflowStep)
    (vars : List (String × String)) (maxR : Nat) (beh1 beh2 : Nat → CmdBehavior)
    (hok : ∀ n, (executeStepCommand cfg step (beh1 n)).isOk =
                (executeStepCommand cfg step (beh2 n)).isOk) :
    ∀ r attempt se1 se2 ev1 ev2, se1.retry_count = se2.retry_count →
      countInvokes ev1 = countInvokes ev2 →
      (retryLoop cfg step vars beh1 maxR r attempt se1 ev1).1.status =
        (retryLoop cfg step vars beh2 maxR r attempt se2 ev2).1.status ∧
      (retryLoop cfg step vars beh1 maxR r attempt se1 ev1).1.retry_count =
        (retryLoop cfg step vars beh2 maxR r attempt se2 ev2).1.retry_count ∧
      countInvokes (retryLoop cfg step vars beh1 maxR r attempt se1 ev1).2 =
        countInvokes (retryLoop cfg step vars beh2 maxR r attempt se2 ev2).2 := by
  intro r
  induction r with
  | zero =>
    intro attempt se1 se2 ev1 ev2 hrc hcnt
    simp [retryLoop, hrc, hcnt]
  | succ r ih =>
    intro attempt se1 se2 ev1 ev2 hrc hcnt
    have hsame := hok attempt
    cases h1 : executeStepCommand cfg step (beh1 attempt) with
    | ok out1 =>
      cases h2 : executeStepCommand cfg step (beh2 attempt) with
      | ok out2 =>
        by_cases h0 : 0 < attempt <;>
          simp [retryLoop, h1, h2, h0, hrc, countInvokes_append, countInvokes_cons_invoke, hcnt]
      | error e2 =>
        rw [h1, h2] at hsame
        simp [Except.toBool, Except.isOk] at hsame
    | error e1 =>
      cases h2 : executeStepCommand cfg step (beh2 attempt) with
      | ok out2 =>
        rw [h1, h2] at hsame
        simp [Except.toBool, Except.isOk] at hsame
      | error e2 =>
        by_cases h0 : 0 < attempt
        · by_cases hlt : attempt < maxR
          · simp only [retryLoop, h1, h2, if_pos h0, if_pos hlt]
            exact ih (attempt + 1) _ _ _ _ (by simp)
              (by simp [countInvokes_append, countInvokes_cons_invoke,
                countInvokes_cons_sleep, countInvokes_nil, hcnt])
          · simp only [retryLoop, h1, h2, if_pos h0, if_neg hlt]
            exact ih (attempt + 1) _ _ _ _ (by simp)
              (by simp [countInvokes_append, countInvokes_cons_invoke, countInvokes_nil, hcnt])
        · by_cases hlt : attempt < maxR
          · simp only [retryLoop, h1, h2, if_neg h0, if_pos hlt]
            exact ih (attempt + 1) _ _ _ _ (by simp [hrc])
              (by simp [countInvokes_append, countInvokes_cons_invoke,
                countInvokes_cons_sleep, countInvokes_nil, hcnt])
          · simp only [retryLoop, h1, h2, if_neg h0, if_neg hlt]
            exact ih (attempt + 1) _ _ _ _ (by simp [hrc])
              (by simp [countInvokes_append, countInvokes_cons_invoke, countInvokes_nil, hcnt])

theorem loopEvents_invoke_fields (cfg : WorkflowConfig) (step : WorkflowStep)
    (vars : List (String × String)) (beh : Nat → CmdBehavior) (maxR : Nat) :
    ∀ r attempt a c g env,
      Event.invoke a c g env ∈ loopEvents cfg step vars beh maxR r attempt →
      c = step.command ∧ g = step.args ∧ env = vars := by
  intro r
  induction r with
  | zero =>
    intro attempt a c g env h
    simp [loopEvents] at h
  | succ r ih =>
    intro attempt a c g env h
    simp only [loopEvents] at h
    rcases List.mem_cons.mp h with heq | htail
    · injection heq with ha hc hg he
      exact ⟨hc, hg, he⟩
    · cases hcmd : executeStepCommand cfg step (beh attempt) with
      | ok out =>
        rw [hcmd] at htail
        simp at htail
      | error e =>
        rw [hcmd] at htail
        rcases List.mem_append.mp htail with hs | hrec
        · by_cases hlt : attempt < maxR
          · rw [if_pos hlt] at hs
            simp at hs
          · rw [if_neg hlt] at hs
            simp at hs
        · exact ih (attempt + 1) a c g env hrec

/-- C7: the timeout and environment contract of one step invocation.  An
attempt whose command runs longer than the effective timeout (the step-level
override, else the workflow default, in seconds) yields the timeout error;
two behaviours whose attempts fail at the same indices (whether by timeout or
by non-zero exit) drive the retry loop identically — same final status, same
`retry_count`, same number of invocations, i.e. a timed-out attempt counts
against the same retry budget as a non-zero exit; and every recorded
invocation runs the step's command with its argument list and the run's
variable mapping as the child environment. -/
theorem timeout_and_env (cfg : WorkflowConfig) (step : WorkflowStep)
    (vars : List (String × String)) :
    (∀ b : CmdBehavior, effectiveTimeout cfg step < b.duration →
      executeStepCommand cfg step b = Except.error "deadline has elapsed") ∧
    effectiveTimeout cfg step = step.timeout.getD cfg.timeout_seconds ∧
    (∀ beh1 beh2 : Nat → CmdBehavior,
      (∀ n, (executeStepCommand cfg step (beh1 n)).isOk =
            (executeStepCommand cfg step (beh2 n)).isOk) →
      (executeStep cfg step vars beh1).1.status =
        (executeStep cfg step vars beh2).1.status ∧
      (executeStep cfg step vars beh1).1.retry_count =
        (executeStep cfg step vars beh2).1.retry_count ∧
      countInvokes (executeStep cfg step vars beh1).2 =
        countInvokes (executeStep cfg step vars beh2).2) ∧
    (∀ beh : Nat → CmdBehavior, ∀ a c g env,
      Event.invoke a c g env ∈ (executeStep cfg step vars beh).2 →
      c = step.command ∧ g = step.args ∧ env = vars) := by
  refine ⟨?_, rfl, ?_, ?_⟩
  · intro b h
    simp [executeStepCommand, h]
  · intro beh1 beh2 hok
    cases hc : step.condition with
    | none =>
      simp only [executeStep, hc]
      exact retryLoop_isOk_congr cfg step vars (maxRetriesOf cfg step) beh1 beh2 hok
        (maxRetriesOf cfg step + 1) 0 _ _ [] [] rfl rfl
    | some c =>
      by_cases hev : evaluateCondition c vars
      · simp only [executeStep, hc, hev, if_pos]
        exact retryLoop_isOk_congr cfg step vars (maxRetriesOf cfg step) beh1 beh2 hok
          (maxRetriesOf cfg step + 1) 0 _ _ [] [] rfl rfl
      · simp only [executeStep, hc, Bool.not_eq_true] at hev ⊢
        simp [hev]
  · intro beh a c g env h
    cases hc : step.condition with
    | none =>
      simp only [executeStep, hc] at h
      rw [retryLoop_events cfg step vars beh (maxRetriesOf cfg step)
        (maxRetriesOf cfg step + 1) 0, List.nil_append] at h
      exact loopEvents_invoke_fields cfg step vars beh (maxRetriesOf cfg step)
        (maxRetriesOf cfg step + 1) 0 a c g env h
    | some cnd =>
      by_cases hev : evaluateCondition cnd vars
      · simp only [executeStep, hc, hev, if_pos] at h
        rw [retryLoop_events cfg step vars beh (maxRetriesOf cfg step)
          (maxRetriesOf cfg step + 1) 0, List.nil_append] at h
        exact loopEvents_invoke_fields cfg step vars beh (maxRetriesOf cfg step)
          (maxRetriesOf cfg step + 1) 0 a c g env h
      · simp only [executeStep, hc, Bool.not_eq_true] at hev h
        simp only [hev, Bool.false_eq_true, if_false] at h
        simp at h

/-- Witness for C7: under the default configuration a 10000-second command
exceeds the 3600-second default timeout and is reported as the timeout
error, and an always-timing-out behaviour drives the executor to the same
status, retry count and number of invocations as an always-exiting-non-zero
behaviour. -/
theorem timeout_and_env_witness :
    executeStepCommand sampleConfig (mkStep "s" [] (some 1)) (slowBeh 0) =
      Except.error "deadline has elapsed" ∧
    (executeStep sampleConfig (mkStep "s" [] (some 1)) [] slowBeh).1.status =
      (executeStep sampleConfig (mkStep "s" [] (some 1)) [] failBeh).1.status ∧
    (executeStep sampleConfig (mkStep "s" [] (some 1)) [] slowBeh).1.retry_count =
      (executeStep sampleConfig (mkStep "s" [] (some 1)) [] failBeh).1.retry_count ∧
    countInvokes (executeStep sampleConfig (mkStep "s" [] (some 1)) [] slowBeh).2 =
      countInvokes (executeStep sampleConfig (mkStep "s" [] (some 1)) [] failBeh).2 :=
  ⟨(timeout_and_env sampleConfig (mkStep "s" [] (some 1)) []).1 (slowBeh 0) (by decide),
   (timeout_and_env sampleConfig (mkStep "s" [] (some 1)) []).2.2.1 slowBeh failBeh
     (fun _ => rfl)⟩

theorem hours_gt_24_iff (d : Int) : 24 < numHours d ↔ 90000 ≤ d := by
  unfold numHours
  constructor
  · intro h
    rcases le_or_lt 0 d with hd | hd
    · rw [Int.tdiv_eq_ediv hd (by norm_num)] at h
      omega
    · exfalso
      have h1 : (0 : Int) ≤ -d := by omega
      have h2 : 0 ≤ (-d).tdiv 3600 := Int.tdiv_nonneg h1 (by norm_num)
      rw [Int.neg_tdiv] at h2
      omega
  · intro h
    rw [Int.tdiv_eq_ediv (by omega) (by norm_num)]
    omega

theorem shouldRemove_iff (now : Int) (t : TaskInfo) :
    shouldRemove now t = true ↔
      (isTerminal t.status = true ∧ ∃ c, t.completed_at = some c ∧ 90000 ≤ now - c) := by
  cases hs : t.status <;>
    cases hc : t.completed_at <;>
      simp [shouldRemove, isTerminal, hs, hc, hours_gt_24_iff]

/-- C8 (amended): `cleanup_completed_tasks` removes exactly those entries
whose status is terminal and whose completion timestamp lies more than 24
*whole* hours in the past — `(now - completed_at).num_hours() > 24`, i.e. an
age of at least 25 hours (90000 seconds).  Entries completed less than that
(including every entry between 24 and 25 hours old), entries with
non-terminal status, and entries without a completion timestamp are never
removed; the reported count is the number of entries passing the removal
test. -/
theorem cleanup_removal_criterion (now : Int) (tasks : List TaskInfo)
    (hnodup : (tasks.map (fun t => t.id)).Nodup) :
    (∀ t : TaskInfo, shouldRemove now t = true ↔
      (isTerminal t.status = true ∧ ∃ c, t.completed_at = some c ∧ 90000 ≤ now - c)) ∧
    (∀ t ∈ tasks,
      t ∈ (cleanupCompletedTasks now tasks).1 ↔ shouldRemove now t = false) ∧
    (cleanupCompletedTasks now tasks).2 = (tasks.filter (shouldRemove now)).length := by
  refine ⟨fun t => shouldRemove_iff now t, ?_, by simp [cleanupCompletedTasks]⟩
  intro t ht
  simp only [cleanupCompletedTasks, List.mem_filter]
  constructor
  · rintro ⟨-, hkeep⟩
    by_contra hrm
    rw [Bool.not_eq_false] at hrm
    have hidmem : t.id ∈ (tasks.filter (shouldRemove now)).map (fun t => t.id) :=
      List.mem_map.mpr ⟨t, List.mem_filter.mpr ⟨ht, hrm⟩, rfl⟩
    have hcont : ((tasks.filter (shouldRemove now)).map (fun t => t.id)).contains t.id =
        true := List.elem_eq_true_of_mem hidmem
    rw [hcont] at hkeep
    simp at hkeep
  · intro hsr
    refine ⟨ht, ?_⟩
    by_contra hmem
    rw [Bool.not_eq_true, Bool.not_eq_false'] at hmem
    have hid : t.id ∈ (tasks.filter (shouldRemove now)).map (fun t => t.id) :=
      List.elem_iff.mp hmem
    obtain ⟨u, hu, huid⟩ := List.mem_map.mp hid
    obtain ⟨humem, husr⟩ := List.mem_filter.mp hu
    have huteq : u = t := List.inj_on_of_nodup_map hnodup humem ht huid
    rw [huteq] at husr
    rw [husr] at hsr
    exact Bool.noConfusion hsr

/-- Counterexample to C8 as stated: a terminal task whose completion lies
24.5 hours (88200 seconds) in the past — strictly more than 24 hours — is
NOT removed, because `num_hours()` truncates to 24 which is not `> 24`: the
sweep keeps the entry and reports zero removals. -/
theorem cleanup_counterexample :
    isTerminal sampleTask.status = true ∧
    sampleTask.completed_at = some 0 ∧
    (86400 : Int) < 88200 - 0 ∧
    (cleanupCompletedTasks 88200 [sampleTask]).1 = [sampleTask] ∧
    (cleanupCompletedTasks 88200 [sampleTask]).2 = 0 := by
  decide

/-- Witness for the amended C8: at age 200000 seconds (at least 25 whole
hours) the same terminal task IS removed and counted. -/
theorem cleanup_removal_criterion_witness :
    sampleTask ∉ (cleanupCompletedTasks 200000 [sampleTask]).1 ∧
    (cleanupCompletedTasks 200000 [sampleTask]).2 = 1 := by
  have h := cleanup_removal_criterion 200000 [sampleTask] (by decide)
  refine ⟨fun hmem => ?_, h.2.2.trans (by decide)⟩
  exact absurd ((h.2.1 sampleTask (by decide)).mp hmem) (by decide)

/-- C9 (amended): for a task entry over one orchestrator lifecycle with no
`cancel_task` mutation interleaved, the observed status sequence moves only
forward along `Pending → Running → {Completed | Failed}`.  With cancellation
interleaved the property fails (see the counterexample), because both
`cancel_task` and the post-delegate update assign their status
unconditionally, so a terminal status can be overwritten. -/
theorem task_status_forward_no_cancel (ops : List TaskOp) (ok : Bool)
    (hlife : IsLifecycle ops ok)
    (hnc : ops.filter TaskOp.isCancel = []) :
    forwardTrace (statusTrace ops) = true := by
  unfold IsLifecycle at hlife
  have hall : ∀ o ∈ ops, (!o.isCancel) = true := by
    intro o ho
    have hno := List.filter_eq_nil_iff.mp hnc o ho
    simp only [Bool.not_eq_true] at hno ⊢
    simp [hno]
  have hself : ops.filter (fun o => !o.isCancel) = ops := List.filter_eq_self.mpr hall
  rw [hself] at hlife
  rw [hlife]
  cases ok <;> decide

/-- Counterexample to C9 as stated: a `cancel_task` racing a workflow task's
completion yields the observed status sequence
`Pending, Running, Cancelled, Completed` — the final delegate update moves
the entry out of the terminal `Cancelled` status. -/
theorem task_status_counterexample :
    IsLifecycle [TaskOp.start, TaskOp.cancel, TaskOp.finish true] true ∧
    statusTrace [TaskOp.start, TaskOp.cancel, TaskOp.finish true] =
      [TaskStatus.Pending, TaskStatus.Running, TaskStatus.Cancelled,
       TaskStatus.Completed] ∧
    ¬ forwardTrace (statusTrace [TaskOp.start, TaskOp.cancel, TaskOp.finish true]) =
        true := by
  refine ⟨?_, by decide, by decide⟩
  unfold IsLifecycle
  decide

/-- Witness for the amended C9 at the concrete cancel-free lifecycle of a
successfully completing task. -/
theorem task_status_forward_no_cancel_witness :
    forwardTrace (statusTrace [TaskOp.start, TaskOp.finish true]) = true :=
  task_status_forward_no_cancel [TaskOp.start, TaskOp.finish true] true
    (by unfold IsLifecycle; decide) (by decide)

/-! ## Lemmas about the Step Scheduler -/

theorem chain_reaches (R : String → String → Prop) :
    ∀ (l : List String) (target : String),
      List.Chain' (fun a b => R b a) l →
      (∀ hd, l.head? = some hd → R hd target) →
      ∀ x ∈ l, Relation.TransGen R x target := by
  intro l
  induction l with
  | nil =>
    intro target hchain hhead x hx
    simp at hx
  | cons hd tl ih =>
    intro target hchain hhead x hx
    have hhd : Relation.TransGen R hd target :=
      Relation.TransGen.single (hhead hd rfl)
    rcases List.mem_cons.mp hx with hxhd | hxtl
    · rw [hxhd]
      exact hhd
    · have hchain2 := List.chain'_cons'.mp hchain
      have hx_hd : Relation.TransGen R x hd :=
        ih hd hchain2.2 (fun h2 hh2 => hchain2.1 h2 hh2) x hxtl
      exact Relation.TransGen.trans hx_hd hhd

theorem ClosedFrom_snoc :
    ∀ (l : List WorkflowStep) (b : List String) (x : WorkflowStep),
      ClosedFrom b l →
      (∀ d ∈ x.depends_on, d ∈ b ∨ d ∈ idsOf l) →
      ClosedFrom b (l ++ [x]) := by
  intro l
  induction l with
  | nil =>
    intro b x hcl hdep
    refine ⟨?_, trivial⟩
    intro d hd
    rcases hdep d hd with h | h
    · exact h
    · simp [idsOf] at h
  | cons y l2 ih =>
    intro b x hcl hdep
    obtain ⟨hy, hrest⟩ := hcl
    refine ⟨hy, ih (y.id :: b) x hrest ?_⟩
    intro d hd
    rcases hdep d hd with h | h
    · exact Or.inl (List.mem_cons_of_mem _ h)
    · have h2 : d = y.id ∨ ∃ a ∈ l2, a.id = d := by simpa [idsOf] using h
      rcases h2 with h3 | ⟨a, ha, haid⟩
      · exact Or.inl (List.mem_cons.mpr (Or.inl h3))
      · refine Or.inr ?_
        simp only [idsOf, List.mem_map]
        exact ⟨a, ha, haid⟩

theorem visiting_card_absurd (allSteps : List WorkflowStep) (visiting : List String)
    (hnd : visiting.Nodup) (hsub : ∀ x ∈ visiting, x ∈ idsOf allSteps)
    (hcard : (idsOf allSteps).toFinset.card < visiting.length) : False := by
  have h1 : visiting.toFinset.card = visiting.length :=
    List.toFinset_card_of_nodup hnd
  have h2 : visiting.toFinset ⊆ (idsOf allSteps).toFinset := by
    intro x hx
    exact List.mem_toFinset.mpr (hsub x (List.mem_toFinset.mp hx))
  have h3 := Finset.card_le_card h2
  omega

theorem depsSound_of_stepSound (allSteps : List WorkflowStep) (fuel : Nat)
    (hS : StepSound allSteps fuel) : DepsSound allSteps fuel := by
  intro deps
  induction deps with
  | nil =>
    intro visited visiting sorted hres hinv hchain hhead hnd hsub hcard
    refine ⟨?_, ?_, ?_, ?_⟩
    · intro v s h
      simp only [visitDeps, visitDepsWith, Except.ok.injEq, Prod.mk.injEq] at h
      obtain ⟨hv, hs⟩ := h
      subst hv
      subst hs
      exact ⟨⟨[], (List.append_nil sorted).symm⟩, fun x hx => hx, by simp, hinv,
        fun x hx => Or.inl hx⟩
    · intro c h
      simp [visitDeps, visitDepsWith] at h
    · intro d h
      simp [visitDeps, visitDepsWith] at h
    · simp [visitDeps, visitDepsWith]
  | cons d ds ihds =>
    intro visited visiting sorted hres hinv hchain hhead hnd hsub hcard
    cases hfind : allSteps.find? (fun s => s.id == d) with
    | none =>
      have heq : visitDeps fuel (d :: ds) allSteps visited visiting sorted =
          Except.error (SortError.depNotFound d) := by
        simp [visitDeps, visitDepsWith, hfind]
      refine ⟨?_, ?_, ?_, ?_⟩
      · intro v s h
        rw [heq] at h
        simp at h
      · intro c h
        rw [heq] at h
        simp at h
      · intro d0 h
        rw [heq] at h
        injection h with he
        injection he with hd0
        subst hd0
        refine ⟨hres d (List.mem_cons_self d ds), ?_⟩
        intro t ht
        have := List.find?_eq_none.mp hfind t ht
        simpa using this
      · intro h
        rw [heq] at h
        simp at h
    | some depStep =>
      have hdepmem : depStep ∈ allSteps := List.mem_of_find?_eq_some hfind
      have hdepid : depStep.id = d := by
        have := List.find?_some hfind
        simpa using this
      have hhead2 : ∀ hd, visiting.head? = some hd → idDep allSteps hd depStep.id := by
        intro hd hh
        rw [hdepid]
        exact hhead d (List.mem_cons_self d ds) hd hh
      have hstepconc := hS depStep visited visiting sorted hdepmem hinv hchain hhead2
        hnd hsub hcard
      cases hvisit : visitStep fuel depStep allSteps visited visiting sorted with
      | error e =>
        have heq : visitDeps fuel (d :: ds) allSteps visited visiting sorted =
            Except.error e := by
          simp [visitDeps, visitDepsWith, hfind, hvisit]
        refine ⟨?_, ?_, ?_, ?_⟩
        · intro v s h
          rw [heq] at h
          simp at h
        · intro c h
          rw [heq] at h
          injection h with he
          rw [he] at hvisit
          exact hstepconc.2.1 c hvisit
        · intro d0 h
          rw [heq] at h
          injection h with he
          rw [he] at hvisit
          exact hstepconc.2.2.1 d0 hvisit
        · intro h
          rw [heq] at h
          injection h with he
          rw [he] at hvisit
          exact hstepconc.2.2.2 hvisit
      | ok pair =>
        obtain ⟨v0, s0⟩ := pair
        obtain ⟨⟨t1, ht1⟩, hgrow, hdid, hinv0, hfresh⟩ := hstepconc.1 v0 s0 hvisit
        have heq : visitDeps fuel (d :: ds) allSteps visited visiting sorted =
            visitDeps fuel ds allSteps v0 visiting s0 := by
          simp [visitDeps, visitDepsWith, hfind, hvisit]
        have hrec := ihds v0 visiting s0
          (fun d2 h2 => hres d2 (List.mem_cons_of_mem d h2)) hinv0 hchain
          (fun d2 h2 hd hh => hhead d2 (List.mem_cons_of_mem d h2) hd hh) hnd hsub hcard
        refine ⟨?_, ?_, ?_, ?_⟩
        · intro v s h
          rw [heq] at h
          obtain ⟨⟨t2, ht2⟩, hgrow2, hds2, hinv2, hfresh2⟩ := hrec.1 v s h
          refine ⟨⟨t1 ++ t2, by rw [ht2, ht1, List.append_assoc]⟩,
            fun x hx => hgrow2 x (hgrow x hx), ?_, hinv2, ?_⟩
          · intro d2 hd2
            rcases List.mem_cons.mp hd2 with h3 | h3
            · subst h3
              exact hgrow2 d2 (hdepid ▸ hdid)
            · exact hds2 d2 h3
          · intro x hx
            rcases hfresh2 x hx with h4 | h4
            · exact hfresh x h4
            · exact Or.inr h4
        · intro c h
          rw [heq] at h
          exact hrec.2.1 c h
        · intro d0 h
          rw [heq] at h
          exact hrec.2.2.1 d0 h
        · intro h
          rw [heq] at h
          exact hrec.2.2.2 h

theorem stepSound_zero (allSteps : List WorkflowStep) : StepSound allSteps 0 := by
  intro step visited visiting sorted hstep hinv hchain hhead hnd hsub hcard
  refine ⟨?_, ?_, ?_, ?_⟩
  · intro v s h
    simp [visitStep] at h
  · intro c h
    simp [visitStep] at h
  · intro d h
    simp [visitStep] at h
  · intro _
    exact visiting_card_absurd allSteps visiting hnd hsub (by omega)

theorem stepSound_succ (allSteps : List WorkflowStep) (f : Nat)
    (hD : DepsSound allSteps f) : StepSound allSteps (f + 1) := by
  intro step visited visiting sorted hstep hinv hchain hhead hnd hsub hcard
  by_cases hvin : step.id ∈ visiting
  · have heq : visitStep (f + 1) step allSteps visited visiting sorted =
        Except.error (SortError.cycle step.id) := by
      simp [visitStep, hvin]
    refine ⟨?_, ?_, ?_, ?_⟩
    · intro v s h
      rw [heq] at h
      simp at h
    · intro c h
      rw [heq] at h
      injection h with he
      injection he with hc
      subst hc
      exact chain_reaches (idDep allSteps) visiting step.id hchain hhead step.id hvin
    · intro d h
      rw [heq] at h
      simp at h
    · intro h
      rw [heq] at h
      simp at h
  · by_cases hvis : step.id ∈ visited
    · have heq : visitStep (f + 1) step allSteps visited visiting sorted =
          Except.ok (visited, sorted) := by
        simp [visitStep, hvin, hvis]
      refine ⟨?_, ?_, ?_, ?_⟩
      · intro v s h
        rw [heq] at h
        simp only [Except.ok.injEq, Prod.mk.injEq] at h
        obtain ⟨hv, hs⟩ := h
        subst hv
        subst hs
        exact ⟨⟨[], (List.append_nil sorted).symm⟩, fun x hx => hx, hvis, hinv,
          fun x hx => Or.inl hx⟩
      · intro c h
        rw [heq] at h
        simp at h
      · intro d h
        rw [heq] at h
        simp at h
      · intro h
        rw [heq] at h
        simp at h
    · have hB1 : ∀ d ∈ step.depends_on, ∃ s0 ∈ allSteps, d ∈ s0.depends_on :=
        fun d hd => ⟨step, hstep, hd⟩
      have hB3 : List.Chain' (fun a b => idDep allSteps b a) (step.id :: visiting) :=
        List.chain'_cons'.mpr ⟨fun b hb => hhead b hb, hchain⟩
      have hB4 : ∀ d ∈ step.depends_on, ∀ hd, (step.id :: visiting).head? = some hd →
          idDep allSteps hd d := by
        intro d hd hd2 hh
        have : hd2 = step.id := by
          simpa using hh.symm
        subst this
        exact ⟨step, hstep, rfl, hd⟩
      have hB5 : (step.id :: visiting).Nodup := List.nodup_cons.mpr ⟨hvin, hnd⟩
      have hB6 : ∀ x ∈ step.id :: visiting, x ∈ idsOf allSteps := by
        intro x hx
        rcases List.mem_cons.mp hx with h | h
        · subst h
          simp only [idsOf, List.mem_map]
          exact ⟨step, hstep, rfl⟩
        · exact hsub x h
      have hB7 : (idsOf allSteps).toFinset.card < f + (step.id :: visiting).length := by
        simp only [List.length_cons]
        omega
      have hDres := hD step.depends_on visited (step.id :: visiting) sorted hB1 hinv hB3
        hB4 hB5 hB6 hB7
      cases hdeps : visitDepsWith (visitStep f) step.depends_on allSteps visited
          (step.id :: visiting) sorted with
      | error e =>
        have heq : visitStep (f + 1) step allSteps visited visiting sorted =
            Except.error e := by
          simp [visitStep, hvin, hvis, hdeps]
        refine ⟨?_, ?_, ?_, ?_⟩
        · intro v s h
          rw [heq] at h
          simp at h
        · intro c h
          rw [heq] at h
          injection h with he
          rw [he] at hdeps
          exact hDres.2.1 c hdeps
        · intro d h
          rw [heq] at h
          injection h with he
          rw [he] at hdeps
          exact hDres.2.2.1 d hdeps
        · intro h
          rw [heq] at h
          injection h with he
          rw [he] at hdeps
          exact hDres.2.2.2 hdeps
      | ok pair =>
        obtain ⟨v0, s0⟩ := pair
        obtain ⟨⟨t1, ht1⟩, hgrow, hdeps_in, hinv0, hfresh⟩ := hDres.1 v0 s0 hdeps
        have heq : visitStep (f + 1) step allSteps visited visiting sorted =
            Except.ok (step.id :: v0, s0 ++ [step]) := by
          simp [visitStep, hvin, hvis, hdeps]
        have hstep_not_s0 : step.id ∉ idsOf s0 := by
          intro hmem
          have hv0 : step.id ∈ v0 := (hinv0.1 step.id).mpr hmem
          rcases hfresh step.id hv0 with h | h
          · exact hvis h
          · exact h (List.mem_cons_self step.id visiting)
        refine ⟨?_, ?_, ?_, ?_⟩
        · intro v s h
          rw [heq] at h
          simp only [Except.ok.injEq, Prod.mk.injEq] at h
          obtain ⟨hv, hs⟩ := h
          subst hv
          subst hs
          refine ⟨⟨t1 ++ [step], by rw [ht1, List.append_assoc]⟩,
            fun x hx => List.mem_cons_of_mem _ (hgrow x hx),
            List.mem_cons_self _ _, ?_, ?_⟩
          · refine ⟨?_, ?_, ?_, ?_⟩
            · intro x
              simp only [idsOf, List.map_append, List.map_cons, List.map_nil,
                List.mem_append, List.mem_cons, List.not_mem_nil, or_false]
              constructor
              · intro hx
                rcases hx with h | h
                · exact Or.inr h
                · exact Or.inl ((hinv0.1 x).mp h)
              · intro hx
                rcases hx with h | h
                · exact Or.inr ((hinv0.1 x).mpr h)
                · exact Or.inl h
            · simp only [idsOf, List.map_append, List.map_cons, List.map_nil]
              rw [List.nodup_append]
              refine ⟨hinv0.2.1, List.nodup_singleton _, ?_⟩
              intro x hx hx2
              rcases List.mem_cons.mp hx2 with h | h
              · subst h
                exact hstep_not_s0 hx
              · simp at h
            · intro t ht
              rcases List.mem_append.mp ht with h | h
              · exact hinv0.2.2.1 t h
              · rcases List.mem_cons.mp h with h2 | h2
                · subst h2
                  exact hstep
                · simp at h2
            · refine ClosedFrom_snoc s0 [] step hinv0.2.2.2 ?_
              intro d hd
              exact Or.inr ((hinv0.1 d).mp (hdeps_in d hd))
          · intro x hx
            rcases List.mem_cons.mp hx with h | h
            · subst h
              exact Or.inr hvin
            · rcases hfresh x h with h2 | h2
              · exact Or.inl h2
              · exact Or.inr fun h3 => h2 (List.mem_cons_of_mem _ h3)
        · intro c h
          rw [heq] at h
          simp at h
        · intro d h
          rw [heq] at h
          simp at h
        · intro h
          rw [heq] at h
          simp at h

theorem sched_sound (allSteps : List WorkflowStep) :
    ∀ fuel, StepSound allSteps fuel ∧ DepsSound allSteps fuel := by
  intro fuel
  induction fuel with
  | zero =>
    exact ⟨stepSound_zero allSteps,
      depsSound_of_stepSound allSteps 0 (stepSound_zero allSteps)⟩
  | succ f ih =>
    have hS := stepSound_succ allSteps f ih.2
    exact ⟨hS, depsSound_of_stepSound allSteps (f + 1) hS⟩

theorem sortLoop_sound (allSteps : List WorkflowStep) :
    ∀ rest visited sorted,
      (∀ st ∈ rest, st ∈ allSteps) →
      SchedInv allSteps visited sorted →
      ((∀ v s, sortLoop allSteps rest visited sorted = Except.ok (v, s) →
          SchedInv allSteps v s ∧ (∀ x ∈ visited, x ∈ v) ∧
          (∀ st ∈ rest, st.id ∈ v) ∧ ∃ t, s = sorted ++ t) ∧
       (∀ c, sortLoop allSteps rest visited sorted =
          Except.error (SortError.cycle c) →
          Relation.TransGen (idDep allSteps) c c) ∧
       (∀ d, sortLoop allSteps rest visited sorted =
          Except.error (SortError.depNotFound d) →
          (∃ s0 ∈ allSteps, d ∈ s0.depends_on) ∧ ∀ t ∈ allSteps, t.id ≠ d) ∧
       sortLoop allSteps rest visited sorted ≠ Except.error SortError.outOfFuel) := by
  intro rest
  induction rest with
  | nil =>
    intro visited sorted hmem hinv
    refine ⟨?_, ?_, ?_, ?_⟩
    · intro v s h
      simp only [sortLoop, Except.ok.injEq, Prod.mk.injEq] at h
      obtain ⟨hv, hs⟩ := h
      subst hv
      subst hs
      exact ⟨hinv, fun x hx => hx, by simp, [], (List.append_nil sorted).symm⟩
    · intro c h
      simp [sortLoop] at h
    · intro d h
      simp [sortLoop] at h
    · simp [sortLoop]
  | cons st rest2 ih =>
    intro visited sorted hmem hinv
    by_cases hv : st.id ∈ visited
    · have heq : sortLoop allSteps (st :: rest2) visited sorted =
          sortLoop allSteps rest2 visited sorted := by
        simp [sortLoop, hv]
      have hrec := ih visited sorted (fun u hu => hmem u (List.mem_cons_of_mem st hu)) hinv
      refine ⟨?_, ?_, ?_, ?_⟩
      · intro v s h
        rw [heq] at h
        obtain ⟨hinv2, hgrow, hrest, ht⟩ := hrec.1 v s h
        refine ⟨hinv2, hgrow, ?_, ht⟩
        intro u hu
        rcases List.mem_cons.mp hu with h2 | h2
        · subst h2
          exact hgrow u.id hv
        · exact hrest u h2
      · intro c h
        rw [heq] at h
        exact hrec.2.1 c h
      · intro d h
        rw [heq] at h
        exact hrec.2.2.1 d h
      · intro h
        rw [heq] at h
        exact hrec.2.2.2 h
    · have hcard : (idsOf allSteps).toFinset.card <
          (allSteps.length + 1) + ([] : List String).length := by
        have h1 : (idsOf allSteps).toFinset.card ≤ (idsOf allSteps).length :=
          List.toFinset_card_le (idsOf allSteps)
        have h2 : (idsOf allSteps).length = allSteps.length := List.length_map _ _
        simp only [List.length_nil]
        omega
      have hconc := (sched_sound allSteps (allSteps.length + 1)).1 st visited [] sorted
        (hmem st (List.mem_cons_self st rest2)) hinv (List.chain'_nil)
        (fun hd hh => by simp at hh) List.nodup_nil (by simp) hcard
      cases hvis : visitStep (allSteps.length + 1) st allSteps visited [] sorted with
      | error e =>
        have heq : sortLoop allSteps (st :: rest2) visited sorted = Except.error e := by
          simp [sortLoop, hv, hvis]
        refine ⟨?_, ?_, ?_, ?_⟩
        · intro v s h
          rw [heq] at h
          simp at h
        · intro c h
          rw [heq] at h
          injection h with he
          rw [he] at hvis
          exact hconc.2.1 c hvis
        · intro d h
          rw [heq] at h
          injection h with he
          rw [he] at hvis
          exact hconc.2.2.1 d hvis
        · intro h
          rw [heq] at h
          injection h with he
          rw [he] at hvis
          exact hconc.2.2.2 hvis
      | ok pair =>
        obtain ⟨v0, s0⟩ := pair
        obtain ⟨⟨t1, ht1⟩, hgrow, hstid, hinv0, -⟩ := hconc.1 v0 s0 hvis
        have heq : sortLoop allSteps (st :: rest2) visited sorted =
            sortLoop allSteps rest2 v0 s0 := by
          simp [sortLoop, hv, hvis]
        have hrec := ih v0 s0 (fun u hu => hmem u (List.mem_cons_of_mem st hu)) hinv0
        refine ⟨?_, ?_, ?_, ?_⟩
        · intro v s h
          rw [heq] at h
          obtain ⟨hinv2, hgrow2, hrest, t2, ht2⟩ := hrec.1 v s h
          refine ⟨hinv2, fun x hx => hgrow2 x (hgrow x hx), ?_,
            t1 ++ t2, by rw [ht2, ht1, List.append_assoc]⟩
          intro u hu
          rcases List.mem_cons.mp hu with h2 | h2
          · subst h2
            exact hgrow2 u.id hstid
          · exact hrest u h2
        · intro c h
          rw [heq] at h
          exact hrec.2.1 c h
        · intro d h
          rw [heq] at h
          exact hrec.2.2.1 d h
        · intro h
          rw [heq] at h
          exact hrec.2.2.2 h

theorem sort_sound (steps : List WorkflowStep) :
    (∀ order, sortStepsByDependencies steps = Except.ok order →
       (idsOf order).Nodup ∧ (∀ t ∈ order, t ∈ steps) ∧
       (∀ st ∈ steps, st.id ∈ idsOf order) ∧ ClosedFrom [] order) ∧
    (∀ c, sortStepsByDependencies steps = Except.error (SortError.cycle c) →
       Relation.TransGen (idDep steps) c c) ∧
    (∀ d, sortStepsByDependencies steps = Except.error (SortError.depNotFound d) →
       (∃ s0 ∈ steps, d ∈ s0.depends_on) ∧ ∀ t ∈ steps, t.id ≠ d) ∧
    sortStepsByDependencies steps ≠ Except.error SortError.outOfFuel := by
  have hinit : SchedInv steps [] [] :=
    ⟨by simp [idsOf], by simp [idsOf], by simp, trivial⟩
  have hloop := sortLoop_sound steps steps [] [] (fun st hst => hst) hinit
  cases hres : sortLoop steps steps [] [] with
  | error e =>
    have heq : sortStepsByDependencies steps = Except.error e := by
      simp [sortStepsByDependencies, hres]
    refine ⟨?_, ?_, ?_, ?_⟩
    · intro order h
      rw [heq] at h
      simp at h
    · intro c h
      rw [heq] at h
      injection h with he
      rw [he] at hres
      exact hloop.2.1 c hres
    · intro d h
      rw [heq] at h
      injection h with he
      rw [he] at hres
      exact hloop.2.2.1 d hres
    · intro h
      rw [heq] at h
      injection h with he
      rw [he] at hres
      exact hloop.2.2.2 hres
  | ok pair =>
    obtain ⟨v, s⟩ := pair
    obtain ⟨hinv, -, hall, -⟩ := hloop.1 v s hres
    have heq : sortStepsByDependencies steps = Except.ok s := by
      simp [sortStepsByDependencies, hres]
    refine ⟨?_, ?_, ?_, ?_⟩
    · intro order h
      rw [heq] at h
      injection h with horder
      subst horder
      exact ⟨hinv.2.1, hinv.2.2.1, fun st hst => (hinv.1 st.id).mp (hall st hst),
        hinv.2.2.2⟩
    · intro c h
      rw [heq] at h
      simp at h
    · intro d h
      rw [heq] at h
      simp at h
    · intro h
      rw [heq] at h
      simp at h

theorem mem_take_get {α : Type} :
    ∀ (l : List α) (n : Nat) (u : α), u ∈ l.take n →
      ∃ k : Fin l.length, k.val < n ∧ l.get k = u := by
  intro l
  induction l with
  | nil =>
    intro n u hu
    simp at hu
  | cons x tl ih =>
    intro n u hu
    cases n with
    | zero => simp at hu
    | succ m =>
      rw [List.take_succ_cons] at hu
      rcases List.mem_cons.mp hu with h | h
      · exact ⟨⟨0, by simp⟩, Nat.succ_pos m, h.symm⟩
      · obtain ⟨k, hk, hget⟩ := ih m u h
        exact ⟨⟨k.val + 1, by simp⟩, Nat.succ_lt_succ hk, hget⟩

theorem ClosedFrom_mem_prefix :
    ∀ (l : List WorkflowStep) (b : List String), ClosedFrom b l →
      ∀ i : Fin l.length, ∀ d ∈ (l.get i).depends_on,
        d ∈ b ∨ d ∈ idsOf (l.take i.val) := by
  intro l
  induction l with
  | nil =>
    intro b _ i
    exact absurd i.2 (by simp)
  | cons x tl ih =>
    intro b hcl i
    obtain ⟨hx, hrest⟩ := hcl
    cases i using Fin.cases with
    | zero =>
      intro d hd
      exact Or.inl (hx d hd)
    | succ i2 =>
      intro d hd
      have hd2 : d ∈ (tl.get i2).depends_on := by
        simpa using hd
      rcases ih (x.id :: b) hrest i2 d hd2 with h | h
      · rcases List.mem_cons.mp h with h2 | h2
        · refine Or.inr ?_
          subst h2
          simp [idsOf, List.take_succ_cons]
        · exact Or.inl h2
      · refine Or.inr ?_
        simp only [Fin.val_succ, List.take_succ_cons, idsOf, List.map_cons, List.mem_cons]
        right
        simpa [idsOf] using h

theorem closed_direct_lt (order : List WorkflowStep)
    (hnd : (idsOf order).Nodup) (hcl : ClosedFrom [] order) :
    ∀ i j : Fin order.length, DirectDepIn order i j → j < i := by
  intro i j hdep
  rcases ClosedFrom_mem_prefix order [] hcl i _ hdep with h | h
  · simp at h
  · obtain ⟨u, hu, huid⟩ := List.mem_map.mp (show (order.get j).id ∈
        List.map (fun s => s.id) (order.take i.val) from h)
    obtain ⟨k, hki, hget⟩ := mem_take_get order i.val u hu
    have hndo : order.Nodup := hnd.of_map
    have humem : u ∈ order := hget ▸ List.get_mem order k.val k.2
    have hueq : u = order.get j :=
      List.inj_on_of_nodup_map hnd humem (List.get_mem order j.val j.2) huid
    have hkj : k = j := by
      rw [← hget] at hueq
      exact (List.Nodup.get_inj_iff hndo).mp hueq
    rw [← hkj]
    exact hki

theorem closed_trans_lt (order : List WorkflowStep)
    (hnd : (idsOf order).Nodup) (hcl : ClosedFrom [] order) :
    ∀ i j : Fin order.length, Relation.TransGen (DirectDepIn order) i j → j < i := by
  intro i j htg
  induction htg with
  | single h => exact closed_direct_lt order hnd hcl _ _ h
  | tail hab hbc ih =>
    exact lt_trans (closed_direct_lt order hnd hcl _ _ hbc) ih

theorem success_no_cycle (steps order : List WorkflowStep)
    (hnodup : (idsOf steps).Nodup) (hres : Resolves steps)
    (hsub : ∀ t ∈ order, t ∈ steps) (hndo : (idsOf order).Nodup)
    (hall : ∀ st ∈ steps, st.id ∈ idsOf order) (hcl : ClosedFrom [] order) :
    ¬ HasCycle steps := by
  have hinj := List.inj_on_of_nodup_map hnodup
  have hmem_order : ∀ st ∈ steps, st ∈ order := by
    intro st hst
    obtain ⟨u, hu, huid⟩ := List.mem_map.mp (hall st hst)
    have heq := hinj (hsub u hu) hst huid
    rwa [heq] at hu
  have hA : ∀ a b, idDep steps a b → ∃ i j : Fin order.length,
      (order.get i).id = a ∧ (order.get j).id = b ∧ j < i := by
    rintro a b ⟨s, hs, hsid, hdep⟩
    obtain ⟨i, hi⟩ := List.mem_iff_get.mp (hmem_order s hs)
    obtain ⟨t, ht, htid⟩ := hres s hs b hdep
    obtain ⟨j, hj⟩ := List.mem_iff_get.mp (hmem_order t ht)
    have hdd : DirectDepIn order i j := by
      unfold DirectDepIn
      rw [hj, hi, htid]
      exact hdep
    exact ⟨i, j, by rw [hi, hsid], by rw [hj, htid],
      closed_direct_lt order hndo hcl i j hdd⟩
  have hidx : ∀ j j2 : Fin order.length,
      (order.get j).id = (order.get j2).id → j = j2 := by
    intro j j2 heq
    have hndo2 : order.Nodup := hndo.of_map
    have hel : order.get j = order.get j2 :=
      List.inj_on_of_nodup_map hndo (List.get_mem order j.val j.2) (List.get_mem order j2.val j2.2) heq
    exact (List.Nodup.get_inj_iff hndo2).mp hel
  rintro ⟨a, htg⟩
  have hB : ∀ b, Relation.TransGen (idDep steps) a b → ∃ i j : Fin order.length,
      (order.get i).id = a ∧ (order.get j).id = b ∧ j < i := by
    intro b htg2
    induction htg2 with
    | single h => exact hA a _ h
    | tail hab hbc ih =>
      obtain ⟨i, j, hia, hjb, hji⟩ := ih
      obtain ⟨j2, k, hj2, hkc, hkj⟩ := hA _ _ hbc
      have hjj : j2 = j := hidx j2 j (by rw [hj2, hjb])
      subst hjj
      exact ⟨i, k, hia, hkc, lt_trans hkj hji⟩
  obtain ⟨i, j, hia, hja, hji⟩ := hB a htg
  have hij : i = j := hidx i j (by rw [hia, hja])
  rw [hij] at hji
  exact lt_irrefl j hji

theorem sort_perm (steps order : List WorkflowStep)
    (hok : sortStepsByDependencies steps = Except.ok order)
    (hnodup : (idsOf steps).Nodup) : order.Perm steps := by
  obtain ⟨hndo, hsub, hall, -⟩ := (sort_sound steps).1 order hok
  have hinj := List.inj_on_of_nodup_map hnodup
  have hsub2 : steps ⊆ order := by
    intro st hst
    obtain ⟨u, hu, huid⟩ := List.mem_map.mp (hall st hst)
    have heq := hinj (hsub u hu) hst huid
    rwa [heq] at hu
  exact (List.subperm_of_subset hndo.of_map (fun t ht => hsub t ht)).antisymm
    (List.subperm_of_subset hnodup.of_map hsub2)

/-- C2: Step Scheduler correctness (step identifiers are unique within a
workflow per the data model, hence the `Nodup` hypothesis; all dependency
identifiers resolve).  For an acyclic dependency graph the scheduler returns
an ordering containing every input step in which every step appears after
all of its transitive dependencies; for a step set containing a dependency
cycle it returns a cycle error naming a step on a cycle and produces no
ordering. -/
theorem scheduler_topological (steps : List WorkflowStep)
    (hnodup : (idsOf steps).Nodup) (hres : Resolves steps) :
    (¬ HasCycle steps →
      ∃ order, sortStepsByDependencies steps = Except.ok order ∧
        (∀ st ∈ steps, st ∈ order) ∧
        ∀ i j : Fin order.length, Relation.TransGen (DirectDepIn order) i j → j < i) ∧
    (HasCycle steps →
      ∃ c, sortStepsByDependencies steps = Except.error (SortError.cycle c) ∧
        Relation.TransGen (idDep steps) c c) := by
  constructor
  · intro hnc
    cases hsort : sortStepsByDependencies steps with
    | ok order =>
      obtain ⟨hndo, hsub, hall, hcl⟩ := (sort_sound steps).1 order hsort
      refine ⟨order, rfl, ?_, closed_trans_lt order hndo hcl⟩
      intro st hst
      obtain ⟨u, hu, huid⟩ := List.mem_map.mp (hall st hst)
      have heq := List.inj_on_of_nodup_map hnodup (hsub u hu) hst huid
      rwa [heq] at hu
    | error e =>
      cases e with
      | cycle c => exact absurd ⟨c, (sort_sound steps).2.1 c hsort⟩ hnc
      | depNotFound d =>
        obtain ⟨⟨s0, hs0, hdep⟩, hnone⟩ := (sort_sound steps).2.2.1 d hsort
        obtain ⟨t, ht, htid⟩ := hres s0 hs0 d hdep
        exact absurd htid (hnone t ht)
      | outOfFuel => exact absurd hsort (sort_sound steps).2.2.2
  · intro hc
    cases hsort : sortStepsByDependencies steps with
    | ok order =>
      obtain ⟨hndo, hsub, hall, hcl⟩ := (sort_sound steps).1 order hsort
      exact absurd hc (success_no_cycle steps order hnodup hres hsub hndo hall hcl)
    | error e =>
      cases e with
      | cycle c => exact ⟨c, rfl, (sort_sound steps).2.1 c hsort⟩
      | depNotFound d =>
        obtain ⟨⟨s0, hs0, hdep⟩, hnone⟩ := (sort_sound steps).2.2.1 d hsort
        obtain ⟨t, ht, htid⟩ := hres s0 hs0 d hdep
        exact absurd htid (hnone t ht)
      | outOfFuel => exact absurd hsort (sort_sound steps).2.2.2

/-- Witness for C2: the scheduler orders a one-step acyclic set and reports
the cycle in a self-dependent step set. -/
theorem scheduler_topological_witness :
    (∃ order, sortStepsByDependencies [mkStep "a" [] none] = Except.ok order ∧
      (∀ st ∈ [mkStep "a" [] none], st ∈ order) ∧
      ∀ i j : Fin order.length, Relation.TransGen (DirectDepIn order) i j → j < i) ∧
    (∃ c, sortStepsByDependencies [mkStep "t" ["t"] none] =
        Except.error (SortError.cycle c) ∧
      Relation.TransGen (idDep [mkStep "t" ["t"] none]) c c) := by
  constructor
  · refine (scheduler_topological [mkStep "a" [] none] (by decide) ?_).1 ?_
    · unfold Resolves
      decide
    · rintro ⟨a, htg⟩
      obtain ⟨y, h, -⟩ := Relation.TransGen.head'_iff.mp htg
      obtain ⟨s, hs, hsid, hdep⟩ := h
      simp only [List.mem_singleton] at hs
      subst hs
      simp [mkStep] at hdep
  · refine (scheduler_topological [mkStep "t" ["t"] none] (by decide) ?_).2 ?_
    · unfold Resolves
      decide
    · exact ⟨"t", Relation.TransGen.single
        ⟨mkStep "t" ["t"] none, List.mem_singleton.mpr rfl, rfl, by decide⟩⟩

/-- C10 (amended): when the Step Scheduler succeeds, its output has
pairwise-distinct step identifiers and draws every element from the input,
and when the input identifiers are pairwise distinct (as the data model
requires) the output is a permutation of the input — each input step exactly
once.  No declaration-order tie-break among independent steps holds (see the
counterexample): a dependency of an earlier-declared step precedes
later-declared independent steps. -/
theorem scheduler_output_perm (steps order : List WorkflowStep)
    (hok : sortStepsByDependencies steps = Except.ok order) :
    (idsOf order).Nodup ∧ (∀ t ∈ order, t ∈ steps) ∧
    ((idsOf steps).Nodup → order.Perm steps) := by
  obtain ⟨hndo, hsub, -, -⟩ := (sort_sound steps).1 order hok
  exact ⟨hndo, hsub, fun hnd => sort_perm steps order hok hnd⟩

/-- Witness for the amended C10 at a concrete one-step input. -/
theorem scheduler_output_perm_witness :
    (idsOf [mkStep "a" [] none]).Nodup ∧
    (∀ t ∈ [mkStep "a" [] none], t ∈ [mkStep "a" [] none]) ∧
    ((idsOf [mkStep "a" [] none]).Nodup →
      [mkStep "a" [] none].Perm [mkStep "a" [] none]) :=
  scheduler_output_perm [mkStep "a" [] none] [mkStep "a" [] none] (by decide)

/-- Counterexample to C10 as stated.  First, with duplicate identifiers the
output is not a permutation of the input: the second step carrying identifier
`a` is dropped.  Second, the declaration-order tie-break fails: in the input
`[b (depends on c), a, c]` the steps `a` and `c` are independent (no
transitive dependency either way) and `a` is declared before `c`, yet the
scheduler outputs `[c, b, a]` with `c` before `a`. -/
theorem scheduler_output_counterexample :
    (sortStepsByDependencies
        [mkStep "a" [] none, { mkStep "a" [] none with name := "a2" }] =
      Except.ok [mkStep "a" [] none] ∧
     { mkStep "a" [] none with name := "a2" } ∉ [mkStep "a" [] none]) ∧
    (sortStepsByDependencies
        [mkStep "b" ["c"] none, mkStep "a" [] none, mkStep "c" [] none] =
      Except.ok [mkStep "c" [] none, mkStep "b" ["c"] none, mkStep "a" [] none] ∧
     ¬ Relation.TransGen
        (idDep [mkStep "b" ["c"] none, mkStep "a" [] none, mkStep "c" [] none])
        "a" "c" ∧
     ¬ Relation.TransGen
        (idDep [mkStep "b" ["c"] none, mkStep "a" [] none, mkStep "c" [] none])
        "c" "a") := by
  have hedge : ∀ a y,
      idDep [mkStep "b" ["c"] none, mkStep "a" [] none, mkStep "c" [] none] a y →
      a = "b" ∧ y = "c" := by
    rintro a y ⟨s, hs, hsid, hdep⟩
    simp only [List.mem_cons, List.not_mem_nil, or_false] at hs
    rcases hs with h | h | h
    · subst h
      refine ⟨hsid.symm, ?_⟩
      have : y ∈ ["c"] := hdep
      simpa using this
    · subst h
      simp [mkStep] at hdep
    · subst h
      simp [mkStep] at hdep
  refine ⟨⟨by decide, by decide⟩, by decide, ?_, ?_⟩
  · intro htg
    obtain ⟨y, h, -⟩ := Relation.TransGen.head'_iff.mp htg
    have hba := (hedge _ _ h).1
    simp at hba
  · intro htg
    obtain ⟨y, h, -⟩ := Relation.TransGen.head'_iff.mp htg
    have hba := (hedge _ _ h).1
    simp at hba

theorem StepExecution.ext_fields (x y : StepExecution)
    (h1 : x.step_id = y.step_id) (h2 : x.status = y.status)
    (h4 : x.completed_at = y.completed_at) (h5 : x.output = y.output)
    (h6 : x.error_message = y.error_message) (h7 : x.retry_count = y.retry_count) :
    x = y := by
  cases x
  cases y
  simp_all

theorem sort_chain3 (A B C : WorkflowStep)
    (hab : A.id ≠ B.id) (hac : A.id ≠ C.id) (hbc : B.id ≠ C.id)
    (hA : A.depends_on = []) (hB : B.depends_on = [A.id]) (hC : C.depends_on = [B.id]) :
    sortStepsByDependencies [A, B, C] = Except.ok [A, B, C] := by
  have e1 : (A.id == B.id) = false := beq_eq_false_iff_ne.mpr hab
  have e2 : (B.id == A.id) = false := beq_eq_false_iff_ne.mpr (Ne.symm hab)
  have e3 : (A.id == C.id) = false := beq_eq_false_iff_ne.mpr hac
  have e4 : (C.id == A.id) = false := beq_eq_false_iff_ne.mpr (Ne.symm hac)
  have e5 : (B.id == C.id) = false := beq_eq_false_iff_ne.mpr hbc
  have e6 : (C.id == B.id) = false := beq_eq_false_iff_ne.mpr (Ne.symm hbc)
  have e7 : (A.id == A.id) = true := beq_self_eq_true A.id
  have e8 : (B.id == B.id) = true := beq_self_eq_true B.id
  have e9 : (C.id == C.id) = true := beq_self_eq_true C.id
  simp [sortStepsByDependencies, sortLoop, visitStep, visitDepsWith,
    hA, hB, hC, e1, e2, e3, e4, e5, e6, e7, e8, e9,
    hab, hac, hbc, Ne.symm hab, Ne.symm hac, Ne.symm hbc]

/-- C3: fail-fast on a 3-step chain.  For a workflow with steps `A, B, C`
where `B` depends on `A` and `C` on `B` (distinct identifiers, no
conditions on `A` and `B`), if `A`'s command always succeeds and `B`'s
command always fails, then the run's `WorkflowExecution` records exactly two
`StepExecution`s — `A` with status `Completed` and `B` with status
`Failed` — `C` is never executed, the execution status is `Failed`, and an
error is surfaced. -/
theorem failfast_chain (cfg : WorkflowConfig) (wf : Workflow) (eid : Nat)
    (A B C : WorkflowStep) (beh : String → Nat → CmdBehavior)
    (hsteps : wf.steps = [A, B, C])
    (hab : A.id ≠ B.id) (hac : A.id ≠ C.id) (hbc : B.id ≠ C.id)
    (hA : A.depends_on = []) (hB : B.depends_on = [A.id]) (hC : C.depends_on = [B.id])
    (hAcond : A.condition = none) (hBcond : B.condition = none)
    (hAok : ∀ n, ∃ out, executeStepCommand cfg A (beh A.id n) = Except.ok out)
    (hBfail : ∀ n, AttemptFails cfg B (beh B.id) n) :
    (executeWorkflowSteps cfg wf beh (initialExecution wf eid)).1.steps_executed.map
        (fun se => se.step_id) = [A.id, B.id] ∧
    (executeWorkflowSteps cfg wf beh (initialExecution wf eid)).1.steps_executed.map
        (fun se => se.status) =
      [ExecutionStatus.Completed, ExecutionStatus.Failed] ∧
    (∀ se ∈ (executeWorkflowSteps cfg wf beh (initialExecution wf eid)).1.steps_executed,
        se.step_id ≠ C.id) ∧
    (executeWorkflowSteps cfg wf beh (initialExecution wf eid)).1.status =
        ExecutionStatus.Failed ∧
    (executeWorkflowSteps cfg wf beh (initialExecution wf eid)).2.isSome = true := by
  obtain ⟨outA, houtA⟩ := hAok 0
  have hsA : ∀ vars, (executeStep cfg A vars (beh A.id)).1 =
      { step_id := A.id, status := ExecutionStatus.Completed, started_at := (),
        completed_at := some (), output := some outA, error_message := none,
        retry_count := 0 } := by
    intro vars
    rw [executeStep_of_passes cfg A vars (beh A.id)
      (fun c hc => by rw [hAcond] at hc; exact Option.noConfusion hc)]
    rw [retryLoop_ok_first cfg A vars (beh A.id) (maxRetriesOf cfg A) (maxRetriesOf cfg A)
      _ [] outA houtA]
    simp [initialStepExecution]
  have hsB : ∀ vars, (executeStep cfg B vars (beh B.id)).1 =
      { step_id := B.id, status := ExecutionStatus.Failed, started_at := (),
        completed_at := some (), output := none,
        error_message := some (errMsgAt cfg B (beh B.id) (maxRetriesOf cfg B)),
        retry_count := if maxRetriesOf cfg B = 0 then 0 else maxRetriesOf cfg B } := by
    intro vars
    rw [executeStep_of_passes cfg B vars (beh B.id)
      (fun c hc => by rw [hBcond] at hc; exact Option.noConfusion hc)]
    have hspec := retryLoop_fail_spec cfg B vars (beh B.id) (maxRetriesOf cfg B) hBfail
      (maxRetriesOf cfg B) 0 { initialStepExecution B with status := ExecutionStatus.Running }
      [] (by omega)
    refine StepExecution.ext_fields _ _ ?_ ?_ ?_ ?_ ?_ ?_
    · exact hspec.2.2.2.2.2.trans (by simp [initialStepExecution])
    · exact hspec.1
    · exact hspec.2.1
    · exact hspec.2.2.2.2.1.trans (by simp [initialStepExecution])
    · exact hspec.2.2.2.1
    · exact hspec.2.2.1.trans (by simp [initialStepExecution])
  have hsort : sortStepsByDependencies wf.steps = Except.ok [A, B, C] := by
    rw [hsteps]
    exact sort_chain3 A B C hab hac hbc hA hB hC
  have hCF : (ExecutionStatus.Completed == ExecutionStatus.Failed) = false := rfl
  have hFF : (ExecutionStatus.Failed == ExecutionStatus.Failed) = true := rfl
  simp only [executeWorkflowSteps, hsort, runSteps, hsA, hsB, initialExecution, hCF, hFF]
  simp [Ne.symm hac, Ne.symm hbc, hac, hbc]

/-- Witness for C3 at the concrete chain workflow whose middle step's
command always exits non-zero. -/
theorem failfast_chain_witness :
    (executeWorkflowSteps sampleConfig chainWorkflow chainBeh
        (initialExecution chainWorkflow 3)).1.steps_executed.map
        (fun se => se.step_id) = ["a", "b"] ∧
    (executeWorkflowSteps sampleConfig chainWorkflow chainBeh
        (initialExecution chainWorkflow 3)).1.steps_executed.map
        (fun se => se.status) =
      [ExecutionStatus.Completed, ExecutionStatus.Failed] ∧
    (∀ se ∈ (executeWorkflowSteps sampleConfig chainWorkflow chainBeh
        (initialExecution chainWorkflow 3)).1.steps_executed, se.step_id ≠ "c") ∧
    (executeWorkflowSteps sampleConfig chainWorkflow chainBeh
        (initialExecution chainWorkflow 3)).1.status = ExecutionStatus.Failed ∧
    (executeWorkflowSteps sampleConfig chainWorkflow chainBeh
        (initialExecution chainWorkflow 3)).2.isSome = true :=
  failfast_chain sampleConfig chainWorkflow 3 (mkStep "a" [] none)
    (mkStep "b" ["a"] (some 0)) (mkStep "c" ["b"] none) chainBeh rfl
    (by decide) (by decide) (by decide) rfl rfl rfl rfl rfl
    (fun _ => ⟨"out", rfl⟩) (fun _ => ⟨"Command failed: boom", rfl⟩)

theorem runSteps_error_spec (cfg : WorkflowConfig) (beh : String → Nat → CmdBehavior) :
    ∀ steps ex id msg,
      (runSteps cfg beh steps ex).2 = some (EngineError.stepFailed id msg) →
      (runSteps cfg beh steps ex).1.status = ExecutionStatus.Failed ∧
      (runSteps cfg beh steps ex).1.error_message = msg ∧
      ∃ se ∈ (runSteps cfg beh steps ex).1.steps_executed,
        se.status = ExecutionStatus.Failed ∧ se.step_id = id ∧ se.error_message = msg := by
  intro steps
  induction steps with
  | nil =>
    intro ex id msg h
    simp [runSteps] at h
  | cons st rest ih =>
    intro ex id msg h
    have hstep : runSteps cfg beh (st :: rest) ex =
        (match ({ ex with steps_executed :=
            ex.steps_executed ++ [(executeStep cfg st ex.vars (beh st.id)).1] } :
              WorkflowExecution).steps_executed.find?
            (fun s => s.status == ExecutionStatus.Failed) with
         | some failed =>
            ({ { ex with steps_executed :=
                  ex.steps_executed ++ [(executeStep cfg st ex.vars (beh st.id)).1] } with
                status := ExecutionStatus.Failed,
                error_message := failed.error_message },
             some (EngineError.stepFailed failed.step_id failed.error_message))
         | none => runSteps cfg beh rest
            { ex with steps_executed :=
                ex.steps_executed ++ [(executeStep cfg st ex.vars (beh st.id)).1] }) := rfl
    rw [hstep] at h ⊢
    cases hfind : ({ ex with steps_executed :=
        ex.steps_executed ++ [(executeStep cfg st ex.vars (beh st.id)).1] } :
          WorkflowExecution).steps_executed.find?
        (fun s => s.status == ExecutionStatus.Failed) with
    | some failed =>
      rw [hfind] at h
      injection h with h2
      injection h2 with hid hmsg
      subst hid
      subst hmsg
      have hmem := List.mem_of_find?_eq_some hfind
      have hfail : failed.status = ExecutionStatus.Failed := by
        have := List.find?_some hfind
        simpa using this
      exact ⟨rfl, rfl, failed, hmem, hfail, rfl, rfl⟩
    | none =>
      rw [hfind] at h
      exact ih _ id msg h

theorem executeWorkflow_of_error (cfg : WorkflowConfig) (wf : Workflow)
    (beh : String → Nat → CmdBehavior) (eid : Nat) (e : EngineError)
    (h : (executeWorkflowSteps cfg wf beh (initialExecution wf eid)).2 = some e) :
    (executeWorkflow cfg wf beh eid).result = Except.error e ∧
    (executeWorkflow cfg wf beh eid).persisted = none := by
  simp only [executeWorkflow]
  cases hex : executeWorkflowSteps cfg wf beh (initialExecution wf eid) with
  | mk ex err =>
    rw [hex] at h
    cases err with
    | none => simp at h
    | some e0 =>
      injection h with h2
      subst h2
      simp

/-- C1 (code bug): at a one-step workflow whose step always fails,
`execute_workflow` builds the failed execution record in memory (status
`Failed`, partial `StepExecution` list with the failing step, error message
copied from it) and surfaces the error to the caller — but the `?` operator
on `execute_workflow_steps` propagates the error before
`save_execution_record` is reached, so no record is persisted:
`persisted = none`, contradicting the documented behaviour (the mutations of
`execution.status` / `error_message` on the failure path are dead stores in
the code as written, indicating persistence was the intent). -/
theorem failure_record_not_persisted :
    (executeWorkflowSteps sampleConfig failWorkflow (fun _ => failBeh)
        (initialExecution failWorkflow 7)).1.status = ExecutionStatus.Failed ∧
    (executeWorkflowSteps sampleConfig failWorkflow (fun _ => failBeh)
        (initialExecution failWorkflow 7)).1.error_message =
      some "Command failed: boom" ∧
    (∃ se ∈ (executeWorkflowSteps sampleConfig failWorkflow (fun _ => failBeh)
        (initialExecution failWorkflow 7)).1.steps_executed,
      se.status = ExecutionStatus.Failed) ∧
    (executeWorkflow sampleConfig failWorkflow (fun _ => failBeh) 7).result =
      Except.error (EngineError.stepFailed "b" (some "Command failed: boom")) ∧
    (executeWorkflow sampleConfig failWorkflow (fun _ => failBeh) 7).persisted = none := by
  decide

end Automation
